import Mathlib

/-!
Verification model of the BMPM (Beider–Morse Phonetic Matching) engine from
`src/bmpm-engine.ts`.  JavaScript strings are modelled as `List Char`,
JS `Set<string>` as `Finset (List Char)`, JS numbers as `Nat`/`Int`/`ℚ` as
appropriate, and the possibly diverging worklist loop of `encodeWithRules`
as a fuel-indexed function returning `Option`.
-/

abbrev Str := List Char

def strL (s : String) : Str := s.data

/-- Modelled from the spec: the external text primitives supplied by the
JavaScript runtime (`String.prototype.toLowerCase` and
`String.prototype.normalize` with the NFC and NFKD forms).  §1/§2 of the spec
place raw-text normalization outside the core ("external collaborators"), so
the engine model is parameterized by them. -/
structure UPlatform where
  toLower : Str → Str
  nfc : Str → Str
  nfkd : Str → Str

/-- The whitespace characters of the model (the ASCII part of the JS `\s`
character class, which is all the engine's own data ever produces). -/
def isSpaceCh (c : Char) : Bool :=
  decide (c ∈ [' ', '\t', '\n', '\r', Char.ofNat 11, Char.ofNat 12])

/-- The character class `[a-z]`. -/
def azChars : Str := strL "abcdefghijklmnopqrstuvwxyz"

def azCh (c : Char) : Bool := decide (c ∈ azChars)

/-- `isVowel` from the engine: the regex test `/[aeiouy]/`. -/
def isVowel (c : Char) : Bool := decide (c ∈ strL "aeiouy")

/-- Inner loop of `collapseRepeats`: `prev` is the previous source character
(`s[i-1]` in the source). -/
def collapseGo (prev : Char) : Str → Str
  | [] => []
  | c :: cs => if c = prev then collapseGo c cs else c :: collapseGo c cs

/-- `collapseRepeats` from the engine: drop characters equal to their
predecessor. -/
def collapseRepeats : Str → Str
  | [] => []
  | c :: cs => c :: collapseGo c cs

/-- Insert `a` into `l` before the first element `b` with `lt a b`.  Together
with `stableSortBy` this models the (stable) JS `Array.prototype.sort` with a
comparator whose strict "less" test is `lt`. -/
def ordInsert {α : Type} (lt : α → α → Bool) (a : α) : List α → List α
  | [] => [a]
  | b :: l => if lt a b then a :: b :: l else b :: ordInsert lt a l

/-- Stable insertion sort with strict comparator `lt`. -/
def stableSortBy {α : Type} (lt : α → α → Bool) (l : List α) : List α :=
  l.foldl (fun acc a => ordInsert lt a acc) []

/-- `Math.max(...xs)` over a list of numbers (used only on nonempty lists in
the engine). -/
def listMaxI : List Int → Int
  | [] => 0
  | p :: ps => ps.foldl max p

def listMaxN : List Nat → Nat
  | [] => 0
  | p :: ps => ps.foldl max p

/-- `String.prototype.trim`. -/
def trimStr (s : Str) : Str :=
  ((s.dropWhile isSpaceCh).reverse.dropWhile isSpaceCh).reverse

/-- Replace every maximal run of characters rejected by `keep` with a single
space (the regex replace `/[^...]+/g, " "`); the flag records whether the scan
is inside such a run. -/
def replRuns (keep : Char → Bool) : Bool → Str → Str
  | _, [] => []
  | inRun, c :: cs =>
    if keep c then c :: replRuns keep false cs
    else if inRun then replRuns keep true cs
    else ' ' :: replRuns keep true cs

/-- The combining-mark range `[̀-ͯ]`. -/
def isMark (c : Char) : Bool := decide (0x300 ≤ c.toNat ∧ c.toNat ≤ 0x36F)

def stripMarks (s : Str) : Str := s.filter (fun c => !isMark c)

/-- The character class `[a-zßäöü\s]` kept by
`preprocess`. -/
def preAllowed (c : Char) : Bool :=
  azCh c || decide (c ∈ strL "ßäöü") || isSpaceCh c

/-- A global single-character replace (`String.prototype.replace` with a
one-character global regex). -/
def replaceChar (t : Char) (out : Str) (s : Str) : Str :=
  s.foldr (fun c acc => if c = t then out ++ acc else c :: acc) []

/-- The final `\s+ → " "` collapse of `preprocess`. -/
def collapseWs (s : Str) : Str := replRuns (fun c => !isSpaceCh c) false s

/-- `preprocess` from the engine: lowercase, NFKD, strip combining marks,
replace runs of disallowed characters by a space, expand the four Germanic
letters, collapse whitespace and trim. -/
def preprocess (pf : UPlatform) (raw : Str) : Str :=
  trimStr (collapseWs (replaceChar 'ü' (strL "ue") (replaceChar 'ö' (strL "oe")
    (replaceChar 'ä' (strL "ae") (replaceChar 'ß' (strL "ss")
      (replRuns preAllowed false (stripMarks (pf.nfkd (pf.toLower raw)))))))))

/- ------------------------------------------------------------------ -/
/- Data model                                                          -/
/- ------------------------------------------------------------------ -/

inductive NameType
  | GENERIC
  | ASHKENAZI
  | SEPHARDIC
deriving DecidableEq

inductive RuleType
  | EXACT
  | APPROX
deriving DecidableEq

structure Rule where
  pattern : Str
  outputs : List Str
  priority : Int
  lctx : Option (Str → Bool)
  rctx : Option (Str → Bool)
  consumes : Option Nat

structure LanguageRules where
  language : Str
  rules : List Rule

structure LanguageHeuristic where
  language : Str
  weight : ℚ
  predicate : Str → Bool
  transliterator : Option (Str → Str)

structure BMPMConfig where
  nameType : NameType
  ruleType : RuleType
  maxExpansions : Nat
  minKeyLength : Nat
  collapseDuplicates : Bool
  languageHeuristics : List LanguageHeuristic
  languageRuleSets : Str → Option LanguageRules
  mergerTable : Option (List (Str × Str))
  topLanguages : Option Nat

structure EncodeState where
  pos : Nat
  key : Str
deriving DecidableEq

structure EncodeResult where
  language : Str
  keys : Finset Str
deriving DecidableEq

/- ------------------------------------------------------------------ -/
/- Merger folding and finalization                                     -/
/- ------------------------------------------------------------------ -/

/-- `merger[sym]` (JS object property lookup). -/
def mergerLookup (m : List (Str × Str)) (sym : Str) : Str :=
  match m.find? (fun p => decide (p.1 = sym)) with
  | some p => p.2
  | none => []

/-- The scan loop of `applyMergerTable`, indexed by fuel (one unit per
iteration).  On tables whose keys are all nonempty, every iteration consumes
at least one source character, so the fuel `key.length` is never exhausted
and the result is fuel-independent (`applyMergerTable_fuel_stable`): the
model agrees with the source on all such tables.  On a table with an
empty-string key the JS loop advances by zero characters and diverges; the
model instead returns the unprocessed remainder, so every statement about
termination below carries a nonempty-merger-keys hypothesis. -/
def mergeScanGo (m : List (Str × Str)) (symbols : List Str) : Nat → Str → Str
  | _, [] => []
  | 0, rest => rest
  | fuel + 1, c :: rest =>
    match symbols.find? (fun sym => sym.isPrefixOf (c :: rest)) with
    | some sym => mergerLookup m sym ++ mergeScanGo m symbols fuel ((c :: rest).drop sym.length)
    | none => c :: mergeScanGo m symbols fuel rest

/-- `applyMergerTable` from the engine: longest-match-first folding; the
symbol list is the table's keys sorted by descending length (stable, as JS
`sort`). -/
def applyMergerTable (key : Str) (merger : Option (List (Str × Str))) : Str :=
  match merger with
  | none => key
  | some m =>
    let symbols := stableSortBy (fun a b => decide (b.length < a.length)) (m.map Prod.fst)
    mergeScanGo m symbols key.length key

/-- `fallbackMapChar` from the engine. -/
def fallbackMapChar (ch : Char) (rt : RuleType) : Str :=
  match rt with
  | RuleType.EXACT => if isVowel ch then ['A'] else []
  | RuleType.APPROX => []

/-- `finalizeKey` from the engine. -/
def finalizeKey (key : Str) (cfg : BMPMConfig) : Str :=
  match cfg.ruleType with
  | RuleType.APPROX => collapseRepeats (applyMergerTable key cfg.mergerTable)
  | RuleType.EXACT => key

/- ------------------------------------------------------------------ -/
/- Rule selection                                                      -/
/- ------------------------------------------------------------------ -/

/-- `r.consumes ?? r.pattern.length`. -/
def effConsume (r : Rule) : Nat := r.consumes.getD r.pattern.length

/-- The per-rule test of `selectApplicableRules`: pattern matches at `pos`
and both context predicates (absent predicate = always true) hold. -/
def ruleMatches (text : Str) (pos : Nat) (r : Rule) : Bool :=
  r.pattern.isPrefixOf (text.drop pos)
  && (match r.lctx with
      | some f => f (text.take pos)
      | none => true)
  && (match r.rctx with
      | some f => f (text.drop (pos + effConsume r))
      | none => true)

/-- `selectApplicableRules` from the engine: keep the matches of maximum
priority, then among those the maximum consumed length. -/
def selectApplicableRules (text : Str) (pos : Nat) (rules : List Rule) : List Rule :=
  let matched := rules.filter (ruleMatches text pos)
  if matched.isEmpty then []
  else
    let maxPr := listMaxI (matched.map Rule.priority)
    let top := matched.filter (fun m => decide (m.priority = maxPr))
    let maxLen := listMaxN (top.map effConsume)
    top.filter (fun m => decide (effConsume m = maxLen))

/- ------------------------------------------------------------------ -/
/- Encoding engine                                                     -/
/- ------------------------------------------------------------------ -/

/-- The pruning comparator `(b.pos - a.pos) || (a.key.length - b.key.length)`:
descending cursor position, then ascending key length. -/
def frontierLt (a b : EncodeState) : Bool :=
  decide (b.pos < a.pos) || (decide (b.pos = a.pos) && decide (a.key.length < b.key.length))

/-- The ordering the pruning comparator sorts by: descending cursor position,
ties by ascending key length. -/
def frontierOrd (a b : EncodeState) : Prop :=
  b.pos < a.pos ∨ (b.pos = a.pos ∧ a.key.length ≤ b.key.length)

/-- `pruneFrontier` from the engine (the cap argument is always its default
1024 in the source). -/
def pruneFrontier (frontier : List EncodeState) : List EncodeState :=
  (stableSortBy frontierLt frontier).take 1024

/-- The key extension for one pushed branch (with the optional immediate
duplicate collapse). -/
def stepKey (cfg : BMPMConfig) (key out : Str) : Str :=
  if cfg.collapseDuplicates then collapseRepeats (key ++ out) else key ++ out

/-- One `frontier.push(...)` followed by
`if (++expansions > cfg.maxExpansions) frontier = pruneFrontier(frontier)`. -/
def stepPush (cfg : BMPMConfig) (st : Nat × List EncodeState) (x : EncodeState) :
    Nat × List EncodeState :=
  let e := st.1 + 1
  let fr := st.2 ++ [x]
  if cfg.maxExpansions < e then (e, pruneFrontier fr) else (e, fr)

/-- The (rule, output) pairs pushed for one popped state, in source order. -/
def rulePushList (applicable : List Rule) : List (Rule × Str) :=
  applicable.foldr (fun r acc => r.outputs.map (fun o => (r, o)) ++ acc) []

/-- One iteration of the `while (frontier.length)` loop of `encodeWithRules`,
acting on the popped state `s` and the remaining frontier `rest`. -/
def encodeBody (text : Str) (rules : List Rule) (cfg : BMPMConfig)
    (res : Finset Str) (exp : Nat) (s : EncodeState) (rest : List EncodeState) :
    Finset Str × Nat × List EncodeState :=
  if s.pos < text.length then
    let ch := text.getD s.pos ' '
    if ch = ' ' then (res, exp, rest ++ [⟨s.pos + 1, s.key⟩])
    else
      let applicable := selectApplicableRules text s.pos rules
      if applicable.isEmpty then
        (res, exp, rest ++ [⟨s.pos + 1, s.key ++ fallbackMapChar ch cfg.ruleType⟩])
      else
        let pr := (rulePushList applicable).foldl
          (fun st p => stepPush cfg st ⟨s.pos + effConsume p.1, stepKey cfg s.key p.2⟩)
          (exp, rest)
        (res, pr.1, pr.2)
  else
    let f := finalizeKey s.key cfg
    (if cfg.minKeyLength ≤ f.length then insert f res else res, exp, rest)

/-- The worklist loop, indexed by fuel (one unit per iteration); `none` models
divergence. -/
def encodeLoop (text : Str) (rules : List Rule) (cfg : BMPMConfig) :
    Nat → Finset Str → Nat → List EncodeState → Option (Finset Str)
  | _, res, _, [] => some res
  | 0, _, _, _ :: _ => none
  | fuel + 1, res, exp, s :: rest =>
    let t := encodeBody text rules cfg res exp s rest
    encodeLoop text rules cfg fuel t.1 t.2.1 t.2.2

/-- `encodeWithRules` from the engine. -/
def encodeWithRules (fuel : Nat) (text : Str) (lr : LanguageRules) (cfg : BMPMConfig) :
    Option (Finset Str) :=
  encodeLoop text lr.rules cfg fuel ∅ 0 [⟨0, []⟩]

/- ------------------------------------------------------------------ -/
/- Language detection and top-level API                                -/
/- ------------------------------------------------------------------ -/

/-- The name-type default candidate pools of `detectLanguages`. -/
def defaultCandidates : NameType → List (Str × ℚ)
  | NameType.GENERIC =>
    [(strL "english", 1), (strL "german", 1), (strL "french", 1)]
  | NameType.ASHKENAZI =>
    [(strL "yiddish", 2), (strL "german", 1), (strL "polish", 1),
     (strL "russian", 1), (strL "hebrew", 1)]
  | NameType.SEPHARDIC =>
    [(strL "spanish", 2), (strL "portuguese", 1), (strL "hebrew", 1)]

/-- `detectLanguages` from the engine (scores as exact rationals). -/
def detectLanguages (name : Str) (cfg : BMPMConfig) : List (Str × ℚ) :=
  let fired := cfg.languageHeuristics.filterMap
    (fun h => if h.predicate name then some (h.language, h.weight) else none)
  let candidates := if fired.isEmpty then defaultCandidates cfg.nameType else fired
  let total := (candidates.map Prod.snd).sum
  let normalized :=
    if total = 0 then candidates
    else candidates.map (fun c => (c.1, c.2 / total))
  let sorted := stableSortBy (fun a b => decide (b.2 < a.2)) normalized
  match cfg.topLanguages with
  | some k => if k = 0 then sorted else sorted.take k
  | none => sorted

/-- `transliterateForLanguage` from the engine. -/
def transliterateForLanguage (name : Str) (language : Str) (cfg : BMPMConfig) : Str :=
  match cfg.languageHeuristics.find? (fun h => decide (h.language = language)) with
  | some h =>
    match h.transliterator with
    | some t => t name
    | none => name
  | none => name

/-- The per-language loop of `bmpmEncode`. -/
def encodeLangs (pf : UPlatform) (fuel : Nat) (rawForDetect : Str) (cfg : BMPMConfig) :
    List (Str × ℚ) → Option (List EncodeResult)
  | [] => some []
  | (lang, _) :: restL =>
    match cfg.languageRuleSets lang with
    | none => encodeLangs pf fuel rawForDetect cfg restL
    | some lr =>
      let translit := transliterateForLanguage rawForDetect lang cfg
      let norm := preprocess pf translit
      if norm.isEmpty then encodeLangs pf fuel rawForDetect cfg restL
      else
        match encodeWithRules fuel norm lr cfg with
        | none => none
        | some keys =>
          match encodeLangs pf fuel rawForDetect cfg restL with
          | none => none
          | some out => some (if keys = ∅ then out else ⟨lang, keys⟩ :: out)

/-- `bmpmEncode` from the engine. -/
def bmpmEncodeF (pf : UPlatform) (fuel : Nat) (rawName : Str) (cfg : BMPMConfig) :
    Option (List EncodeResult) :=
  if (trimStr rawName).isEmpty then some []
  else
    let rawForDetect := pf.toLower (pf.nfc rawName)
    encodeLangs pf fuel rawForDetect cfg (detectLanguages rawForDetect cfg)

/-- Union of all keys of all per-language results (the `setA`/`setB` built by
`bmpmMatch` and `bmpmSimilarity`). -/
def keyUnion (results : List EncodeResult) : Finset Str :=
  results.foldr (fun r acc => r.keys ∪ acc) ∅

/-- The membership loop of `bmpmMatch`: some key of `A` lies in `B`. -/
def hasSharedKey (A B : Finset Str) : Bool := decide (∃ k ∈ A, k ∈ B)

/-- The Jaccard computation of `bmpmSimilarity` (`union ? inter / union : 0`,
with `inter` the intersection size and `union` the union size). -/
def simSets (A B : Finset Str) : ℚ :=
  if (A ∪ B).card = 0 then 0 else (((A ∩ B).card : ℚ)) / (((A ∪ B).card : ℚ))

/-- `bmpmMatch` from the engine. -/
def bmpmMatchF (pf : UPlatform) (fuel : Nat) (a b : Str) (cfg : BMPMConfig) : Option Bool :=
  match bmpmEncodeF pf fuel a cfg, bmpmEncodeF pf fuel b cfg with
  | some A, some B => some (hasSharedKey (keyUnion A) (keyUnion B))
  | _, _ => none

/-- `bmpmSimilarity` from the engine. -/
def bmpmSimilarityF (pf : UPlatform) (fuel : Nat) (a b : Str) (cfg : BMPMConfig) : Option ℚ :=
  match bmpmEncodeF pf fuel a cfg, bmpmEncodeF pf fuel b cfg with
  | some A, some B => some (simSets (keyUnion A) (keyUnion B))
  | _, _ => none

/- ------------------------------------------------------------------ -/
/- Concrete instances used in the closed statements below             -/
/- ------------------------------------------------------------------ -/

/-- Modelled from the spec: the external runtime text primitives instantiated
as the identity.  On the ASCII-lowercase inputs used in the concrete
statements below, `toLowerCase`, NFC and NFKD are all the identity, so this
instantiation agrees with the JS runtime there. -/
def idPlatform : UPlatform := ⟨id, id, id⟩

def langL : Str := strL "l"

/-- A heuristic that always fires for the single test language. -/
def heurAlways : LanguageHeuristic := ⟨langL, 1, fun _ => true, none⟩

/-- A context-free rule (the common shape in the bundled tables). -/
def mkRule (p : String) (outs : List String) (pr : Int) : Rule :=
  ⟨strL p, outs.map strL, pr, none, none, none⟩

def rulesC2 : LanguageRules :=
  ⟨langL, [mkRule "a" ["X", "Y", "U"] 1, mkRule "b" ["X", "Y"] 1]⟩

def exactCfgC2 : BMPMConfig :=
  { nameType := NameType.GENERIC
    ruleType := RuleType.EXACT
    maxExpansions := 1000
    minKeyLength := 1
    collapseDuplicates := false
    languageHeuristics := [heurAlways]
    languageRuleSets := fun s => if s = langL then some rulesC2 else none
    mergerTable := none
    topLanguages := none }

def approxCfgC2 : BMPMConfig :=
  { exactCfgC2 with
    ruleType := RuleType.APPROX
    collapseDuplicates := true
    mergerTable := some [(strL "X", strL "Z"), (strL "Y", strL "Z")] }

/-- Disjoint single-key rules (for the amended-C2 witness). -/
def rulesDisj : LanguageRules := ⟨langL, [mkRule "a" ["X"] 1, mkRule "b" ["Y"] 1]⟩

def exactCfgDisj : BMPMConfig :=
  { exactCfgC2 with languageRuleSets := fun s => if s = langL then some rulesDisj else none }

def approxCfgDisj : BMPMConfig :=
  { exactCfgDisj with
    ruleType := RuleType.APPROX
    collapseDuplicates := true
    mergerTable := some [(strL "X", strL "Z"), (strL "Y", strL "Z")] }

/-- A rule that matches one character but consumes zero characters. -/
def badRule : Rule := ⟨strL "a", [[]], 1, none, none, some 0⟩

def badLR : LanguageRules := ⟨langL, [badRule]⟩

def badCfg : BMPMConfig :=
  { exactCfgC2 with
    maxExpansions := 0
    languageRuleSets := fun s => if s = langL then some badLR else none }

/-- The claim C2 configuration relation: `approx` differs from `exact` only by
rule type APPROX, an enabled merger table, and enabled duplicate collapsing. -/
def approxRelatedCfg (exact approx : BMPMConfig) : Prop :=
  exact.nameType = approx.nameType
  ∧ exact.maxExpansions = approx.maxExpansions
  ∧ exact.minKeyLength = approx.minKeyLength
  ∧ exact.languageHeuristics = approx.languageHeuristics
  ∧ exact.languageRuleSets = approx.languageRuleSets
  ∧ exact.topLanguages = approx.topLanguages
  ∧ exact.ruleType = RuleType.EXACT
  ∧ approx.ruleType = RuleType.APPROX
  ∧ exact.mergerTable = none
  ∧ exact.collapseDuplicates = false
  ∧ approx.collapseDuplicates = true

/-- The key sets the engine computes for the concrete names and
configurations above (`getD ∅` only unwraps the `some`). -/
def keysAeC2 : Finset Str := (encodeWithRules 20 (strL "a") rulesC2 exactCfgC2).getD ∅

def keysBeC2 : Finset Str := (encodeWithRules 20 (strL "b") rulesC2 exactCfgC2).getD ∅

def keysAaC2 : Finset Str := (encodeWithRules 20 (strL "a") rulesC2 approxCfgC2).getD ∅

def keysBaC2 : Finset Str := (encodeWithRules 20 (strL "b") rulesC2 approxCfgC2).getD ∅

def keysAeD : Finset Str := (encodeWithRules 20 (strL "a") rulesDisj exactCfgDisj).getD ∅

def keysBeD : Finset Str := (encodeWithRules 20 (strL "b") rulesDisj exactCfgDisj).getD ∅

def keysAaD : Finset Str := (encodeWithRules 20 (strL "a") rulesDisj approxCfgDisj).getD ∅

def keysBaD : Finset Str := (encodeWithRules 20 (strL "b") rulesDisj approxCfgDisj).getD ∅

/-- Total number of alternative outputs across a rule list: an upper bound on
the number of pushes one popped state can cause. -/
def totalOutputs (rules : List Rule) : Nat :=
  (rules.map (fun r => r.outputs.length)).sum

/-- Base of the termination measure, strictly larger than the number of
pushes any single iteration performs. -/
def branchBound (rules : List Rule) : Nat := totalOutputs rules + 2

/-- Weight of one frontier element for the termination measure. -/
def stateWeight (B len : Nat) (s : EncodeState) : Nat := B ^ (len + 1 - s.pos)

/-- Termination measure of a frontier: the sum of its element weights. -/
def frontierMeasure (B len : Nat) (fr : List EncodeState) : Nat :=
  (fr.map (stateWeight B len)).sum

/-- The loop states of `encodeWithRules` reachable during one call
(result set, expansion counter, frontier). -/
inductive EncodeReach (text : Str) (rules : List Rule) (cfg : BMPMConfig) :
    Finset Str → Nat → List EncodeState → Prop
  | init : EncodeReach text rules cfg ∅ 0 [⟨0, []⟩]
  | step {res exp s rest} : EncodeReach text rules cfg res exp (s :: rest) →
      EncodeReach text rules cfg
        (encodeBody text rules cfg res exp s rest).1
        (encodeBody text rules cfg res exp s rest).2.1
        (encodeBody text rules cfg res exp s rest).2.2

/- ------------------------------------------------------------------ -/
/- Helper lemmas: the Jaccard computation                              -/
/- ------------------------------------------------------------------ -/

lemma simSets_nonneg (A B : Finset Str) : 0 ≤ simSets A B := by
  unfold simSets
  split
  · exact le_refl 0
  · positivity

lemma simSets_le_one (A B : Finset Str) : simSets A B ≤ 1 := by
  unfold simSets
  split
  · exact zero_le_one
  · next h =>
    rw [div_le_one (by exact_mod_cast Nat.pos_of_ne_zero h)]
    exact_mod_cast Finset.card_le_card
      (Finset.inter_subset_left.trans Finset.subset_union_left)

lemma simSets_pos_iff (A B : Finset Str) : 0 < simSets A B ↔ (A ∩ B).Nonempty := by
  unfold simSets
  split
  · next h =>
    constructor
    · intro h0
      exact absurd h0 (lt_irrefl 0)
    · rintro ⟨x, hx⟩
      have hx' : x ∈ A ∪ B := Finset.mem_union_left _ (Finset.mem_inter.mp hx).1
      rw [Finset.card_eq_zero.mp h] at hx'
      exact absurd hx' (Finset.not_mem_empty x)
  · next h =>
    constructor
    · intro h0
      by_contra hne
      rw [Finset.not_nonempty_iff_eq_empty.mp hne] at h0
      simp at h0
    · intro hne
      have h1 : (0 : ℚ) < ((A ∩ B).card : ℚ) := by
        exact_mod_cast Finset.card_pos.mpr hne
      have h2 : (0 : ℚ) < ((A ∪ B).card : ℚ) := by
        exact_mod_cast Nat.pos_of_ne_zero h
      exact div_pos h1 h2

lemma simSets_comm (A B : Finset Str) : simSets A B = simSets B A := by
  unfold simSets
  rw [Finset.inter_comm, Finset.union_comm]

lemma simSets_self (A : Finset Str) (h : A.Nonempty) : simSets A A = 1 := by
  unfold simSets
  rw [Finset.inter_self, Finset.union_self,
    if_neg (Nat.pos_iff_ne_zero.mp (Finset.card_pos.mpr h)),
    div_self (by exact_mod_cast Nat.pos_iff_ne_zero.mp (Finset.card_pos.mpr h))]

lemma hasSharedKey_iff (A B : Finset Str) :
    hasSharedKey A B = true ↔ ∃ k ∈ A, k ∈ B := by
  unfold hasSharedKey
  exact decide_eq_true_iff

lemma hasSharedKey_comm (A B : Finset Str) : hasSharedKey A B = hasSharedKey B A := by
  unfold hasSharedKey
  rw [decide_eq_decide]
  constructor
  · rintro ⟨k, h1, h2⟩
    exact ⟨k, h2, h1⟩
  · rintro ⟨k, h1, h2⟩
    exact ⟨k, h2, h1⟩

/- ------------------------------------------------------------------ -/
/- Claims C3, C4, C8, C9                                               -/
/- ------------------------------------------------------------------ -/

/-- Claim C3: `bmpmMatch` returns true iff the unions of all keys across all
languages of the two encodings intersect, equivalently iff `bmpmSimilarity`
is strictly positive. -/
theorem claim_C3 :
    ∀ (pf : UPlatform) (fuel : Nat) (a b : Str) (cfg : BMPMConfig)
      (A B : List EncodeResult),
      bmpmEncodeF pf fuel a cfg = some A →
      bmpmEncodeF pf fuel b cfg = some B →
      ((bmpmMatchF pf fuel a b cfg = some true ↔ ∃ k ∈ keyUnion A, k ∈ keyUnion B)
        ∧ (bmpmMatchF pf fuel a b cfg = some true ↔
            ∃ q, bmpmSimilarityF pf fuel a b cfg = some q ∧ 0 < q)) := by
  intro pf fuel a b cfg A B hA hB
  have hm : bmpmMatchF pf fuel a b cfg = some (hasSharedKey (keyUnion A) (keyUnion B)) := by
    unfold bmpmMatchF
    rw [hA, hB]
  have hs : bmpmSimilarityF pf fuel a b cfg = some (simSets (keyUnion A) (keyUnion B)) := by
    unfold bmpmSimilarityF
    rw [hA, hB]
  have hiff : bmpmMatchF pf fuel a b cfg = some true ↔
      ∃ k ∈ keyUnion A, k ∈ keyUnion B := by
    rw [hm, Option.some_inj]
    exact hasSharedKey_iff _ _
  refine ⟨hiff, hiff.trans ?_⟩
  constructor
  · rintro ⟨k, h1, h2⟩
    refine ⟨simSets (keyUnion A) (keyUnion B), hs, ?_⟩
    exact (simSets_pos_iff _ _).mpr ⟨k, Finset.mem_inter.mpr ⟨h1, h2⟩⟩
  · rintro ⟨q, hq, hpos⟩
    rw [hs, Option.some_inj] at hq
    rcases (simSets_pos_iff (keyUnion A) (keyUnion B)).mp (hq ▸ hpos) with ⟨k, hk⟩
    exact ⟨k, (Finset.mem_inter.mp hk).1, (Finset.mem_inter.mp hk).2⟩

/-- Claim C4: `bmpmSimilarity` always lies in `[0, 1]`, and equals 1 on a
pair of equal names whose encoding produces at least one key. -/
theorem claim_C4 :
    (∀ (pf : UPlatform) (fuel : Nat) (a b : Str) (cfg : BMPMConfig) (q : ℚ),
      bmpmSimilarityF pf fuel a b cfg = some q → 0 ≤ q ∧ q ≤ 1)
    ∧ (∀ (pf : UPlatform) (fuel : Nat) (a : Str) (cfg : BMPMConfig)
        (A : List EncodeResult), a ≠ [] →
        bmpmEncodeF pf fuel a cfg = some A → (keyUnion A).Nonempty →
        bmpmSimilarityF pf fuel a a cfg = some 1) := by
  constructor
  · intro pf fuel a b cfg q h
    unfold bmpmSimilarityF at h
    split at h
    · rw [Option.some_inj] at h
      exact h ▸ ⟨simSets_nonneg _ _, simSets_le_one _ _⟩
    · exact absurd h (by simp)
  · intro pf fuel a cfg A _ hA hne
    unfold bmpmSimilarityF
    rw [hA]
    exact congrArg some (simSets_self _ hne)

/-- Claim C8: `bmpmEncode` maps empty or whitespace-only input to the empty
result list, raising no error. -/
theorem claim_C8 :
    ∀ (pf : UPlatform) (fuel : Nat) (raw : Str) (cfg : BMPMConfig),
      (∀ c ∈ raw, isSpaceCh c = true) → bmpmEncodeF pf fuel raw cfg = some [] := by
  intro pf fuel raw cfg h
  have htrim : trimStr raw = [] := by
    unfold trimStr
    rw [List.dropWhile_eq_nil_iff.mpr h]
    rfl
  unfold bmpmEncodeF
  rw [htrim]
  rfl

/-- Claim C9: `bmpmMatch` and `bmpmSimilarity` are symmetric in the two
names. -/
theorem claim_C9 :
    ∀ (pf : UPlatform) (fuel : Nat) (a b : Str) (cfg : BMPMConfig),
      bmpmMatchF pf fuel a b cfg = bmpmMatchF pf fuel b a cfg
      ∧ bmpmSimilarityF pf fuel a b cfg = bmpmSimilarityF pf fuel b a cfg := by
  intro pf fuel a b cfg
  constructor
  · unfold bmpmMatchF
    cases bmpmEncodeF pf fuel a cfg with
    | none => cases bmpmEncodeF pf fuel b cfg <;> rfl
    | some A =>
      cases bmpmEncodeF pf fuel b cfg with
      | none => rfl
      | some B => exact congrArg some (hasSharedKey_comm _ _)
  · unfold bmpmSimilarityF
    cases bmpmEncodeF pf fuel a cfg with
    | none => cases bmpmEncodeF pf fuel b cfg <;> rfl
    | some A =>
      cases bmpmEncodeF pf fuel b cfg with
      | none => rfl
      | some B => exact congrArg some (simSets_comm _ _)

/- ------------------------------------------------------------------ -/
/- Concrete evaluation lemmas                                          -/
/- ------------------------------------------------------------------ -/

lemma detectLanguages_heurAlways (n : Str) (cfg : BMPMConfig)
    (h1 : cfg.languageHeuristics = [heurAlways]) (h2 : cfg.topLanguages = none) :
    detectLanguages n cfg = [(langL, 1)] := by
  unfold detectLanguages
  rw [h1, h2]
  simp [heurAlways, stableSortBy, ordInsert]

lemma bmpmEncodeF_nonempty (pf : UPlatform) (fuel : Nat) (raw : Str) (cfg : BMPMConfig)
    (h : (trimStr raw).isEmpty = false) :
    bmpmEncodeF pf fuel raw cfg =
      encodeLangs pf fuel (pf.toLower (pf.nfc raw)) cfg
        (detectLanguages (pf.toLower (pf.nfc raw)) cfg) := by
  unfold bmpmEncodeF
  rw [h]
  rfl

lemma encA_exactC2 : bmpmEncodeF idPlatform 20 (strL "a") exactCfgC2
    = some [⟨langL, keysAeC2⟩] := by
  rw [bmpmEncodeF_nonempty _ _ _ _ (by decide), detectLanguages_heurAlways _ _ rfl rfl]
  rfl

lemma encB_exactC2 : bmpmEncodeF idPlatform 20 (strL "b") exactCfgC2
    = some [⟨langL, keysBeC2⟩] := by
  rw [bmpmEncodeF_nonempty _ _ _ _ (by decide), detectLanguages_heurAlways _ _ rfl rfl]
  rfl

lemma encA_approxC2 : bmpmEncodeF idPlatform 20 (strL "a") approxCfgC2
    = some [⟨langL, keysAaC2⟩] := by
  rw [bmpmEncodeF_nonempty _ _ _ _ (by decide), detectLanguages_heurAlways _ _ rfl rfl]
  rfl

lemma encB_approxC2 : bmpmEncodeF idPlatform 20 (strL "b") approxCfgC2
    = some [⟨langL, keysBaC2⟩] := by
  rw [bmpmEncodeF_nonempty _ _ _ _ (by decide), detectLanguages_heurAlways _ _ rfl rfl]
  rfl

lemma encA_exactDisj : bmpmEncodeF idPlatform 20 (strL "a") exactCfgDisj
    = some [⟨langL, keysAeD⟩] := by
  rw [bmpmEncodeF_nonempty _ _ _ _ (by decide), detectLanguages_heurAlways _ _ rfl rfl]
  rfl

lemma encB_exactDisj : bmpmEncodeF idPlatform 20 (strL "b") exactCfgDisj
    = some [⟨langL, keysBeD⟩] := by
  rw [bmpmEncodeF_nonempty _ _ _ _ (by decide), detectLanguages_heurAlways _ _ rfl rfl]
  rfl

lemma encA_approxDisj : bmpmEncodeF idPlatform 20 (strL "a") approxCfgDisj
    = some [⟨langL, keysAaD⟩] := by
  rw [bmpmEncodeF_nonempty _ _ _ _ (by decide), detectLanguages_heurAlways _ _ rfl rfl]
  rfl

lemma encB_approxDisj : bmpmEncodeF idPlatform 20 (strL "b") approxCfgDisj
    = some [⟨langL, keysBaD⟩] := by
  rw [bmpmEncodeF_nonempty _ _ _ _ (by decide), detectLanguages_heurAlways _ _ rfl rfl]
  rfl

lemma simC2_exact :
    bmpmSimilarityF idPlatform 20 (strL "a") (strL "b") exactCfgC2 = some (2/3) := by
  unfold bmpmSimilarityF
  rw [encA_exactC2, encB_exactC2]
  show some (simSets (keyUnion [⟨langL, keysAeC2⟩]) (keyUnion [⟨langL, keysBeC2⟩]))
    = some (2/3)
  rw [Option.some_inj]
  have h1 : (keyUnion [⟨langL, keysAeC2⟩] ∪ keyUnion [⟨langL, keysBeC2⟩]).card = 3 := by
    decide
  have h2 : (keyUnion [⟨langL, keysAeC2⟩] ∩ keyUnion [⟨langL, keysBeC2⟩]).card = 2 := by
    decide
  unfold simSets
  rw [h1, h2]
  norm_num

lemma simC2_approx :
    bmpmSimilarityF idPlatform 20 (strL "a") (strL "b") approxCfgC2 = some (1/2) := by
  unfold bmpmSimilarityF
  rw [encA_approxC2, encB_approxC2]
  show some (simSets (keyUnion [⟨langL, keysAaC2⟩]) (keyUnion [⟨langL, keysBaC2⟩]))
    = some (1/2)
  rw [Option.some_inj]
  have h1 : (keyUnion [⟨langL, keysAaC2⟩] ∪ keyUnion [⟨langL, keysBaC2⟩]).card = 2 := by
    decide
  have h2 : (keyUnion [⟨langL, keysAaC2⟩] ∩ keyUnion [⟨langL, keysBaC2⟩]).card = 1 := by
    decide
  unfold simSets
  rw [h1, h2]
  norm_num

lemma simDisj_exact :
    bmpmSimilarityF idPlatform 20 (strL "a") (strL "b") exactCfgDisj = some 0 := by
  unfold bmpmSimilarityF
  rw [encA_exactDisj, encB_exactDisj]
  show some (simSets (keyUnion [⟨langL, keysAeD⟩]) (keyUnion [⟨langL, keysBeD⟩])) = some 0
  rw [Option.some_inj]
  have h1 : (keyUnion [⟨langL, keysAeD⟩] ∪ keyUnion [⟨langL, keysBeD⟩]).card = 2 := by
    decide
  have h2 : (keyUnion [⟨langL, keysAeD⟩] ∩ keyUnion [⟨langL, keysBeD⟩]).card = 0 := by
    decide
  unfold simSets
  rw [h1, h2]
  norm_num

lemma simDisj_approx :
    bmpmSimilarityF idPlatform 20 (strL "a") (strL "b") approxCfgDisj = some 1 := by
  unfold bmpmSimilarityF
  rw [encA_approxDisj, encB_approxDisj]
  show some (simSets (keyUnion [⟨langL, keysAaD⟩]) (keyUnion [⟨langL, keysBaD⟩])) = some 1
  rw [Option.some_inj]
  have h1 : (keyUnion [⟨langL, keysAaD⟩] ∪ keyUnion [⟨langL, keysBaD⟩]).card = 1 := by
    decide
  have h2 : (keyUnion [⟨langL, keysAaD⟩] ∩ keyUnion [⟨langL, keysBaD⟩]).card = 1 := by
    decide
  unfold simSets
  rw [h1, h2]
  norm_num

/- ------------------------------------------------------------------ -/
/- Claim C2                                                            -/
/- ------------------------------------------------------------------ -/

/-- Claim C2, counterexample: with a pair of configurations that differ only
by enabling merger folding, duplicate collapsing and the APPROX mode, the
APPROX similarity of the names "a" and "b" is 1/2 while the EXACT similarity
is 2/3, so APPROX similarity is not always ≥ EXACT similarity. -/
theorem claim_C2_counterexample :
    approxRelatedCfg exactCfgC2 approxCfgC2
    ∧ bmpmSimilarityF idPlatform 20 (strL "a") (strL "b") exactCfgC2 = some (2/3)
    ∧ bmpmSimilarityF idPlatform 20 (strL "a") (strL "b") approxCfgC2 = some (1/2)
    ∧ ¬ ((2/3 : ℚ) ≤ 1/2) :=
  ⟨⟨rfl, rfl, rfl, rfl, rfl, rfl, rfl, rfl, rfl, rfl, rfl⟩,
    simC2_exact, simC2_approx, by norm_num⟩

/-- Claim C2 (amended): for configurations related as in the claim, the
APPROX similarity is at least the EXACT similarity whenever the EXACT
similarity is zero (similarity is never negative); in general enabling merger
folding, duplicate collapsing and the APPROX fallback can strictly decrease
the Jaccard similarity. -/
theorem claim_C2_amended :
    ∀ (pf : UPlatform) (fuel : Nat) (a b : Str) (cfgE cfgA : BMPMConfig) (qE qA : ℚ),
      approxRelatedCfg cfgE cfgA →
      bmpmSimilarityF pf fuel a b cfgE = some qE →
      bmpmSimilarityF pf fuel a b cfgA = some qA →
      qE = 0 → qE ≤ qA := by
  intro pf fuel a b cfgE cfgA qE qA _ _ hA h0
  subst h0
  unfold bmpmSimilarityF at hA
  split at hA
  · rw [Option.some_inj] at hA
    exact hA ▸ simSets_nonneg _ _
  · exact absurd hA (by simp)

/-- Claim C2 witness: the amended inequality at the concrete disjoint-rule
configurations, where the EXACT similarity is 0 and the APPROX similarity 1. -/
theorem claim_C2_witness : (0 : ℚ) ≤ 1 :=
  claim_C2_amended idPlatform 20 (strL "a") (strL "b") exactCfgDisj approxCfgDisj 0 1
    ⟨rfl, rfl, rfl, rfl, rfl, rfl, rfl, rfl, rfl, rfl, rfl⟩
    simDisj_exact simDisj_approx rfl

/-- Claim C3 witness: the match/intersection equivalence at a concrete
configuration and name pair. -/
theorem claim_C3_witness :
    bmpmMatchF idPlatform 20 (strL "a") (strL "a") exactCfgDisj = some true :=
  ((claim_C3 idPlatform 20 (strL "a") (strL "a") exactCfgDisj
      [⟨langL, keysAeD⟩] [⟨langL, keysAeD⟩] encA_exactDisj encA_exactDisj).1).mpr
    ⟨strL "X", by decide, by decide⟩

/-- Claim C4 witness: the similarity bounds and the reflexivity law at
concrete inputs. -/
theorem claim_C4_witness :
    ((0 : ℚ) ≤ 0 ∧ (0 : ℚ) ≤ 1)
    ∧ bmpmSimilarityF idPlatform 20 (strL "a") (strL "a") exactCfgDisj = some 1 :=
  ⟨claim_C4.1 idPlatform 20 (strL "a") (strL "b") exactCfgDisj 0 simDisj_exact,
    claim_C4.2 idPlatform 20 (strL "a") exactCfgDisj [⟨langL, keysAeD⟩] (by decide)
      encA_exactDisj ⟨strL "X", by decide⟩⟩

/-- Claim C8 witness: the empty-input law evaluated on a whitespace-only
name. -/
theorem claim_C8_witness :
    bmpmEncodeF idPlatform 5 (strL "   ") exactCfgC2 = some [] :=
  claim_C8 idPlatform 5 (strL "   ") exactCfgC2 (by decide)

/- ------------------------------------------------------------------ -/
/- Helper lemmas: maxima of lists                                      -/
/- ------------------------------------------------------------------ -/

lemma le_foldl_max {α : Type} [LinearOrder α] (l : List α) (init : α) :
    init ≤ l.foldl max init := by
  induction l generalizing init with
  | nil => exact le_refl _
  | cons q qs ih => exact le_trans (le_max_left init q) (ih (max init q))

lemma foldl_max_le_of_mem {α : Type} [LinearOrder α] {l : List α} {x : α} (init : α)
    (h : x ∈ l) : x ≤ l.foldl max init := by
  induction l generalizing init with
  | nil => cases h
  | cons q qs ih =>
    rcases List.mem_cons.mp h with rfl | h'
    · exact le_trans (le_max_right init x) (le_foldl_max qs (max init x))
    · exact ih (max init q) h'

lemma foldl_max_mem {α : Type} [LinearOrder α] (l : List α) (init : α) :
    l.foldl max init = init ∨ l.foldl max init ∈ l := by
  induction l generalizing init with
  | nil => exact Or.inl rfl
  | cons q qs ih =>
    rcases ih (max init q) with h | h
    · rcases max_choice init q with he | he
      · exact Or.inl (by rw [List.foldl_cons, h, he])
      · refine Or.inr ?_
        rw [List.foldl_cons, h, he]
        exact List.mem_cons_self _ _
    · exact Or.inr (List.mem_cons_of_mem _ h)

lemma listMaxI_mem {l : List Int} (h : l ≠ []) : listMaxI l ∈ l := by
  cases l with
  | nil => exact absurd rfl h
  | cons p ps =>
    show ps.foldl max p ∈ p :: ps
    rcases foldl_max_mem ps p with h1 | h1
    · rw [h1]
      exact List.mem_cons_self _ _
    · exact List.mem_cons_of_mem _ h1

lemma le_listMaxI {l : List Int} {x : Int} (h : x ∈ l) : x ≤ listMaxI l := by
  cases l with
  | nil => cases h
  | cons p ps =>
    show x ≤ ps.foldl max p
    rcases List.mem_cons.mp h with rfl | h'
    · exact le_foldl_max ps x
    · exact foldl_max_le_of_mem p h'

lemma listMaxN_mem {l : List Nat} (h : l ≠ []) : listMaxN l ∈ l := by
  cases l with
  | nil => exact absurd rfl h
  | cons p ps =>
    show ps.foldl max p ∈ p :: ps
    rcases foldl_max_mem ps p with h1 | h1
    · rw [h1]
      exact List.mem_cons_self _ _
    · exact List.mem_cons_of_mem _ h1

lemma le_listMaxN {l : List Nat} {x : Nat} (h : x ∈ l) : x ≤ listMaxN l := by
  cases l with
  | nil => cases h
  | cons p ps =>
    show x ≤ ps.foldl max p
    rcases List.mem_cons.mp h with rfl | h'
    · exact le_foldl_max ps x
    · exact foldl_max_le_of_mem p h'

lemma listMaxI_perm {l l' : List Int} (h : l.Perm l') (hne : l ≠ []) :
    listMaxI l = listMaxI l' := by
  have hne' : l' ≠ [] := by
    intro he
    exact hne ((he ▸ h : l.Perm []).eq_nil)
  apply le_antisymm
  · exact le_listMaxI (h.mem_iff.mp (listMaxI_mem hne))
  · exact le_listMaxI (h.mem_iff.mpr (listMaxI_mem hne'))

lemma listMaxN_perm {l l' : List Nat} (h : l.Perm l') (hne : l ≠ []) :
    listMaxN l = listMaxN l' := by
  have hne' : l' ≠ [] := by
    intro he
    exact hne ((he ▸ h : l.Perm []).eq_nil)
  apply le_antisymm
  · exact le_listMaxN (h.mem_iff.mp (listMaxN_mem hne))
  · exact le_listMaxN (h.mem_iff.mpr (listMaxN_mem hne'))

/- ------------------------------------------------------------------ -/
/- Rule-selection characterization (claim C5)                          -/
/- ------------------------------------------------------------------ -/

lemma mem_selectApplicableRules_iff (text : Str) (pos : Nat) (rules : List Rule) (r : Rule) :
    r ∈ selectApplicableRules text pos rules ↔
      (r ∈ rules ∧ ruleMatches text pos r = true
        ∧ (∀ r' ∈ rules, ruleMatches text pos r' = true → r'.priority ≤ r.priority)
        ∧ (∀ r' ∈ rules, ruleMatches text pos r' = true → r'.priority = r.priority →
            effConsume r' ≤ effConsume r)) := by
  simp only [selectApplicableRules]
  set M := rules.filter (ruleMatches text pos) with hM
  by_cases hE : M.isEmpty
  · rw [if_pos hE]
    have hMnil : M = [] := List.isEmpty_iff.mp hE
    simp only [List.not_mem_nil, false_iff]
    rintro ⟨hr, hm, -, -⟩
    have hrM : r ∈ M := by
      rw [hM]
      exact List.mem_filter.mpr ⟨hr, hm⟩
    rw [hMnil] at hrM
    exact absurd hrM (List.not_mem_nil r)
  · rw [if_neg hE]
    have hMne : M ≠ [] := by
      intro h0
      rw [h0] at hE
      exact hE rfl
    set maxPr := listMaxI (M.map Rule.priority) with hmaxPr
    set top := M.filter (fun m => decide (m.priority = maxPr)) with htop
    set maxLen := listMaxN (top.map effConsume) with hmaxLen
    constructor
    · intro hr
      have h1 := List.mem_filter.mp hr
      have h2 := List.mem_filter.mp h1.1
      have hprEq : r.priority = maxPr := of_decide_eq_true h2.2
      have hlenEq : effConsume r = maxLen := of_decide_eq_true h1.2
      have hrM := List.mem_filter.mp (hM ▸ h2.1)
      refine ⟨hrM.1, hrM.2, ?_, ?_⟩
      · intro r' hr' hm'
        have hmem : r'.priority ∈ M.map Rule.priority :=
          List.mem_map_of_mem _ (by rw [hM]; exact List.mem_filter.mpr ⟨hr', hm'⟩)
        rw [hprEq]
        exact le_listMaxI hmem
      · intro r' hr' hm' hpr'
        have hr'top : r' ∈ top := by
          rw [htop]
          refine List.mem_filter.mpr ⟨?_, decide_eq_true (hpr'.trans hprEq)⟩
          rw [hM]
          exact List.mem_filter.mpr ⟨hr', hm'⟩
        rw [hlenEq]
        exact le_listMaxN (List.mem_map_of_mem _ hr'top)
    · rintro ⟨hr, hm, hpr, hcons⟩
      have hrM : r ∈ M := by
        rw [hM]
        exact List.mem_filter.mpr ⟨hr, hm⟩
      have hprEq : r.priority = maxPr := by
        apply le_antisymm
        · exact le_listMaxI (List.mem_map_of_mem _ hrM)
        · have hmem := listMaxI_mem (l := M.map Rule.priority) (by simpa using hMne)
          rcases List.mem_map.mp hmem with ⟨r0, hr0M, hr0eq⟩
          have hr0f := List.mem_filter.mp (hM ▸ hr0M)
          rw [hmaxPr, ← hr0eq]
          exact hpr r0 hr0f.1 hr0f.2
      have hrtop : r ∈ top := List.mem_filter.mpr ⟨hrM, decide_eq_true hprEq⟩
      have htopne : top ≠ [] := by
        intro h0
        rw [h0] at hrtop
        exact absurd hrtop (List.not_mem_nil r)
      have hlenEq : effConsume r = maxLen := by
        apply le_antisymm
        · exact le_listMaxN (List.mem_map_of_mem _ hrtop)
        · have hmem := listMaxN_mem (l := top.map effConsume) (by simpa using htopne)
          rcases List.mem_map.mp hmem with ⟨r1, hr1top, hr1eq⟩
          have hr1' := List.mem_filter.mp (htop ▸ hr1top)
          have hr1M := List.mem_filter.mp (hM ▸ hr1'.1)
          rw [hmaxLen, ← hr1eq]
          exact hcons r1 hr1M.1 hr1M.2 ((of_decide_eq_true hr1'.2).trans hprEq.symm)
      exact List.mem_filter.mpr ⟨hrtop, decide_eq_true hlenEq⟩

lemma selectApplicableRules_perm (text : Str) (pos : Nat) (rules rules' : List Rule)
    (h : rules.Perm rules') :
    (selectApplicableRules text pos rules).Perm (selectApplicableRules text pos rules') := by
  simp only [selectApplicableRules]
  have hMp : (rules.filter (ruleMatches text pos)).Perm (rules'.filter (ruleMatches text pos)) :=
    h.filter _
  by_cases hE : (rules.filter (ruleMatches text pos)).isEmpty
  · have hnil : rules.filter (ruleMatches text pos) = [] := List.isEmpty_iff.mp hE
    have hnil' : rules'.filter (ruleMatches text pos) = [] :=
      ((hnil ▸ hMp : ([] : List Rule).Perm _).symm).eq_nil
    simp [hnil, hnil']
  · have hne : rules.filter (ruleMatches text pos) ≠ [] := by
      intro h0
      rw [h0] at hE
      exact hE rfl
    have hne' : rules'.filter (ruleMatches text pos) ≠ [] := by
      intro h0
      exact hne ((h0 ▸ hMp : (rules.filter (ruleMatches text pos)).Perm []).eq_nil)
    rw [if_neg hE, if_neg (fun hh => hne' (List.isEmpty_iff.mp hh))]
    have hmax : listMaxI ((rules.filter (ruleMatches text pos)).map Rule.priority)
        = listMaxI ((rules'.filter (ruleMatches text pos)).map Rule.priority) :=
      listMaxI_perm (hMp.map _) (by simpa using hne)
    rw [hmax]
    have htopPerm := hMp.filter
      (fun m => decide (m.priority
        = listMaxI ((rules'.filter (ruleMatches text pos)).map Rule.priority)))
    have htopne : (rules.filter (ruleMatches text pos)).filter
        (fun m => decide (m.priority
          = listMaxI ((rules'.filter (ruleMatches text pos)).map Rule.priority))) ≠ [] := by
      have hmem := listMaxI_mem
        (l := (rules.filter (ruleMatches text pos)).map Rule.priority) (by simpa using hne)
      rcases List.mem_map.mp hmem with ⟨r0, hr0M, hr0eq⟩
      intro h0
      have : r0 ∈ (rules.filter (ruleMatches text pos)).filter
          (fun m => decide (m.priority
            = listMaxI ((rules'.filter (ruleMatches text pos)).map Rule.priority))) :=
        List.mem_filter.mpr ⟨hr0M, decide_eq_true (by rw [← hmax, hr0eq])⟩
      rw [h0] at this
      exact absurd this (List.not_mem_nil r0)
    have hlen : listMaxN (((rules.filter (ruleMatches text pos)).filter
          (fun m => decide (m.priority
            = listMaxI ((rules'.filter (ruleMatches text pos)).map Rule.priority)))).map effConsume)
        = listMaxN (((rules'.filter (ruleMatches text pos)).filter
          (fun m => decide (m.priority
            = listMaxI ((rules'.filter (ruleMatches text pos)).map Rule.priority)))).map effConsume) :=
      listMaxN_perm (htopPerm.map _) (by simpa using htopne)
    rw [hlen]
    exact htopPerm.filter _

/-- Claim C5: at any cursor position, `selectApplicableRules` returns exactly
the matching rules of maximum priority whose consumed length is maximal among
the priority survivors, and the declaration order of the rule set does not
affect which rules survive (permuting the rules permutes the selection). -/
theorem claim_C5 :
    (∀ (text : Str) (pos : Nat) (rules : List Rule) (r : Rule),
      r ∈ selectApplicableRules text pos rules ↔
        (r ∈ rules ∧ ruleMatches text pos r = true
          ∧ (∀ r' ∈ rules, ruleMatches text pos r' = true → r'.priority ≤ r.priority)
          ∧ (∀ r' ∈ rules, ruleMatches text pos r' = true → r'.priority = r.priority →
              effConsume r' ≤ effConsume r)))
    ∧ (∀ (text : Str) (pos : Nat) (rules rules' : List Rule),
        rules.Perm rules' →
        (selectApplicableRules text pos rules).Perm (selectApplicableRules text pos rules')) :=
  ⟨mem_selectApplicableRules_iff, selectApplicableRules_perm⟩

/-- Claim C5 witness: at a concrete text and rule pair the highest-priority
matching rule is selected, and swapping the two rules permutes the result. -/
theorem claim_C5_witness :
    mkRule "a" ["X", "Y", "U"] 1 ∈ selectApplicableRules (strL "a") 0 rulesC2.rules
    ∧ (selectApplicableRules (strL "a") 0
        [mkRule "a" ["X", "Y", "U"] 1, mkRule "b" ["X", "Y"] 1]).Perm
      (selectApplicableRules (strL "a") 0
        [mkRule "b" ["X", "Y"] 1, mkRule "a" ["X", "Y", "U"] 1]) := by
  constructor
  · refine (claim_C5.1 (strL "a") 0 rulesC2.rules _).mpr ⟨?_, by decide, by decide, by decide⟩
    exact List.mem_cons_self _ _
  · exact claim_C5.2 (strL "a") 0 _ _ (List.Perm.swap _ _ _)

/- ------------------------------------------------------------------ -/
/- Sorting lemmas for the pruning comparator (claim C6)                -/
/- ------------------------------------------------------------------ -/

lemma perm_ordInsert {α : Type} (lt : α → α → Bool) (a : α) (l : List α) :
    (ordInsert lt a l).Perm (a :: l) := by
  induction l with
  | nil => exact List.Perm.refl _
  | cons b l ih =>
    unfold ordInsert
    by_cases h : lt a b
    · rw [if_pos h]
    · rw [if_neg h]
      exact (ih.cons b).trans (List.Perm.swap a b l)

lemma perm_sortFold {α : Type} (lt : α → α → Bool) :
    ∀ (l acc : List α),
      (l.foldl (fun acc a => ordInsert lt a acc) acc).Perm (acc ++ l) := by
  intro l
  induction l with
  | nil => intro acc; simp
  | cons a l ih =>
    intro acc
    refine (ih (ordInsert lt a acc)).trans ?_
    refine ((perm_ordInsert lt a acc).append_right l).trans ?_
    simpa using List.perm_middle.symm

lemma perm_stableSortBy {α : Type} (lt : α → α → Bool) (l : List α) :
    (stableSortBy lt l).Perm l := by
  simpa using perm_sortFold lt l []

lemma frontierLt_ord {a b : EncodeState} (h : frontierLt a b = true) : frontierOrd a b := by
  simp only [frontierLt, Bool.or_eq_true, Bool.and_eq_true, decide_eq_true_eq] at h
  unfold frontierOrd
  omega

lemma frontierLt_not_ord {a b : EncodeState} (h : frontierLt a b = false) : frontierOrd b a := by
  simp only [frontierLt, Bool.or_eq_false_iff, Bool.and_eq_false_iff,
    decide_eq_false_iff_not] at h
  unfold frontierOrd
  rcases h with ⟨h1, h2⟩
  rcases h2 with h2 | h2 <;> omega

lemma frontierOrd_trans {a b c : EncodeState}
    (h1 : frontierOrd a b) (h2 : frontierOrd b c) : frontierOrd a c := by
  unfold frontierOrd at h1 h2 ⊢
  omega

lemma sorted_ordInsert (a : EncodeState) (l : List EncodeState)
    (hs : List.Sorted frontierOrd l) :
    List.Sorted frontierOrd (ordInsert frontierLt a l) := by
  induction l with
  | nil => simp [ordInsert]
  | cons b l ih =>
    rcases List.sorted_cons.mp hs with ⟨hb, hl⟩
    unfold ordInsert
    by_cases h : frontierLt a b
    · rw [if_pos h]
      refine List.sorted_cons.mpr ⟨?_, hs⟩
      intro x hx
      rcases List.mem_cons.mp hx with rfl | hx'
      · exact frontierLt_ord h
      · exact frontierOrd_trans (frontierLt_ord h) (hb x hx')
    · rw [if_neg h]
      refine List.sorted_cons.mpr ⟨?_, ih hl⟩
      intro x hx
      have hx' : x ∈ a :: l := (perm_ordInsert frontierLt a l).mem_iff.mp hx
      rcases List.mem_cons.mp hx' with rfl | hx''
      · exact frontierLt_not_ord (Bool.not_eq_true _ ▸ h)
      · exact hb x hx''

lemma sorted_stableSortBy (l : List EncodeState) :
    List.Sorted frontierOrd (stableSortBy frontierLt l) := by
  suffices h : ∀ (l acc : List EncodeState), List.Sorted frontierOrd acc →
      List.Sorted frontierOrd (l.foldl (fun acc a => ordInsert frontierLt a acc) acc) by
    exact h l [] List.sorted_nil
  intro l
  induction l with
  | nil => intro acc h; exact h
  | cons a l ih => intro acc h; exact ih _ (sorted_ordInsert a acc h)

lemma pruneFrontier_length (fr : List EncodeState) :
    (pruneFrontier fr).length = min 1024 fr.length := by
  unfold pruneFrontier
  rw [List.length_take, (perm_stableSortBy frontierLt fr).length_eq]

lemma pruneFrontier_subperm (fr : List EncodeState) : (pruneFrontier fr).Subperm fr := by
  unfold pruneFrontier
  exact ((List.take_sublist _ _).subperm).trans (perm_stableSortBy frontierLt fr).subperm

lemma pruneFrontier_sorted (fr : List EncodeState) :
    List.Sorted frontierOrd (pruneFrontier fr) := by
  unfold pruneFrontier
  exact List.Pairwise.sublist (List.take_sublist _ _) (sorted_stableSortBy fr)

/- ------------------------------------------------------------------ -/
/- Expansion-counter lemmas (claim C6)                                 -/
/- ------------------------------------------------------------------ -/

lemma stepPush_fst (cfg : BMPMConfig) (st : Nat × List EncodeState) (x : EncodeState) :
    (stepPush cfg st x).1 = st.1 + 1 := by
  simp only [stepPush]
  split <;> rfl

lemma stepPush_over (cfg : BMPMConfig) (st : Nat × List EncodeState) (x : EncodeState)
    (h : cfg.maxExpansions < st.1 + 1) :
    (stepPush cfg st x).2 = pruneFrontier (st.2 ++ [x]) := by
  simp only [stepPush]
  rw [if_pos h]

lemma stepPush_under (cfg : BMPMConfig) (st : Nat × List EncodeState) (x : EncodeState)
    (h : st.1 + 1 ≤ cfg.maxExpansions) :
    (stepPush cfg st x).2 = st.2 ++ [x] := by
  simp only [stepPush]
  rw [if_neg (by omega)]

lemma pushFold_fst (cfg : BMPMConfig) (s : EncodeState) :
    ∀ (ps : List (Rule × Str)) (st : Nat × List EncodeState),
      (ps.foldl (fun st p => stepPush cfg st ⟨s.pos + effConsume p.1, stepKey cfg s.key p.2⟩)
        st).1 = st.1 + ps.length := by
  intro ps
  induction ps with
  | nil => intro st; simp
  | cons p ps ih =>
    intro st
    rw [List.foldl_cons, ih, stepPush_fst]
    simp only [List.length_cons]
    omega

lemma rulePushList_length (applicable : List Rule) :
    (rulePushList applicable).length
      = (applicable.map (fun r => r.outputs.length)).sum := by
  induction applicable with
  | nil => rfl
  | cons r rs ih =>
    show ((r.outputs.map fun o => (r, o)) ++ rulePushList rs).length = _
    rw [List.length_append, List.length_map, ih, List.map_cons, List.sum_cons]

lemma encodeBody_rule_exp (text : Str) (rules : List Rule) (cfg : BMPMConfig)
    (res : Finset Str) (exp : Nat) (s : EncodeState) (rest : List EncodeState)
    (h1 : s.pos < text.length) (h2 : ¬ text.getD s.pos ' ' = ' ')
    (h3 : (selectApplicableRules text s.pos rules).isEmpty = false) :
    (encodeBody text rules cfg res exp s rest).2.1
      = exp + (rulePushList (selectApplicableRules text s.pos rules)).length := by
  simp only [encodeBody, if_pos h1, if_neg h2, h3, Bool.false_eq_true, if_false]
  exact pushFold_fst cfg s _ _

lemma encodeBody_nonrule_exp (text : Str) (rules : List Rule) (cfg : BMPMConfig)
    (res : Finset Str) (exp : Nat) (s : EncodeState) (rest : List EncodeState)
    (h : text.getD s.pos ' ' = ' ' ∨ (selectApplicableRules text s.pos rules).isEmpty = true) :
    (encodeBody text rules cfg res exp s rest).2.1 = exp := by
  simp only [encodeBody]
  rcases h with h | h
  · split <;> rfl
  · split <;> first
      | rfl
      | (split <;> rfl)

/-- Claim C6: every rule-derived push increments the per-call expansion
counter by exactly one (whitespace and fallback pushes do not), the push
handler prunes the whole frontier exactly when the counter exceeds
`maxExpansions`, and pruning keeps at most the first 1024 elements of the
frontier sorted by descending cursor position then ascending key length. -/
theorem claim_C6 :
    (∀ (cfg : BMPMConfig) (st : Nat × List EncodeState) (x : EncodeState),
      (stepPush cfg st x).1 = st.1 + 1
      ∧ (cfg.maxExpansions < st.1 + 1 →
          (stepPush cfg st x).2 = pruneFrontier (st.2 ++ [x]))
      ∧ (st.1 + 1 ≤ cfg.maxExpansions → (stepPush cfg st x).2 = st.2 ++ [x]))
    ∧ (∀ fr : List EncodeState,
        (pruneFrontier fr).length = min 1024 fr.length
        ∧ (pruneFrontier fr).Subperm fr
        ∧ List.Sorted frontierOrd (pruneFrontier fr))
    ∧ (∀ (text : Str) (rules : List Rule) (cfg : BMPMConfig) (res : Finset Str)
        (exp : Nat) (s : EncodeState) (rest : List EncodeState),
        s.pos < text.length → ¬ text.getD s.pos ' ' = ' ' →
        (selectApplicableRules text s.pos rules).isEmpty = false →
        (encodeBody text rules cfg res exp s rest).2.1
          = exp + (rulePushList (selectApplicableRules text s.pos rules)).length)
    ∧ (∀ (text : Str) (rules : List Rule) (cfg : BMPMConfig) (res : Finset Str)
        (exp : Nat) (s : EncodeState) (rest : List EncodeState),
        (text.getD s.pos ' ' = ' '
          ∨ (selectApplicableRules text s.pos rules).isEmpty = true) →
        (encodeBody text rules cfg res exp s rest).2.1 = exp) :=
  ⟨fun cfg st x =>
      ⟨stepPush_fst cfg st x, stepPush_over cfg st x, stepPush_under cfg st x⟩,
    fun fr => ⟨pruneFrontier_length fr, pruneFrontier_subperm fr, pruneFrontier_sorted fr⟩,
    encodeBody_rule_exp,
    encodeBody_nonrule_exp⟩

/-- Claim C6 witness: the counter and pruning behavior at concrete inputs
(a pushed rule branch over the exhausted budget of `badCfg` prunes, the three
outputs of the concrete rule increment the counter by three, and a whitespace
step leaves it unchanged). -/
theorem claim_C6_witness :
    (stepPush badCfg (0, []) ⟨0, []⟩).1 = 1
    ∧ (stepPush badCfg (0, []) ⟨0, []⟩).2 = pruneFrontier ([] ++ [⟨0, []⟩])
    ∧ (pruneFrontier [⟨0, []⟩]).length = min 1024 1
    ∧ (encodeBody (strL "a") rulesC2.rules exactCfgC2 ∅ 0 ⟨0, []⟩ []).2.1
        = 0 + (rulePushList (selectApplicableRules (strL "a") 0 rulesC2.rules)).length
    ∧ (encodeBody (strL " ") rulesC2.rules exactCfgC2 ∅ 0 ⟨0, []⟩ []).2.1 = 0 :=
  ⟨(claim_C6.1 badCfg (0, []) ⟨0, []⟩).1,
    (claim_C6.1 badCfg (0, []) ⟨0, []⟩).2.1 (by decide),
    (claim_C6.2.1 [⟨0, []⟩]).1,
    claim_C6.2.2.1 (strL "a") rulesC2.rules exactCfgC2 ∅ 0 ⟨0, []⟩ []
      (by decide) (by decide) (by decide),
    claim_C6.2.2.2 (strL " ") rulesC2.rules exactCfgC2 ∅ 0 ⟨0, []⟩ []
      (Or.inl (by decide))⟩

/- ------------------------------------------------------------------ -/
/- Minimum key length invariant (claim C7)                             -/
/- ------------------------------------------------------------------ -/

lemma encodeBody_res_minKey (text : Str) (rules : List Rule) (cfg : BMPMConfig)
    (res : Finset Str) (exp : Nat) (s : EncodeState) (rest : List EncodeState)
    (h : ∀ k ∈ res, cfg.minKeyLength ≤ k.length) :
    ∀ k ∈ (encodeBody text rules cfg res exp s rest).1,
      cfg.minKeyLength ≤ k.length := by
  simp only [encodeBody]
  split
  · split
    · exact h
    · split
      · exact h
      · exact h
  · split
    · next hlen =>
      intro k hk
      rcases Finset.mem_insert.mp hk with rfl | hk'
      · exact hlen
      · exact h k hk'
    · exact h

lemma encodeLoop_minKey (text : Str) (rules : List Rule) (cfg : BMPMConfig) :
    ∀ (fuel : Nat) (res : Finset Str) (exp : Nat) (fr : List EncodeState) (ks : Finset Str),
      (∀ k ∈ res, cfg.minKeyLength ≤ k.length) →
      encodeLoop text rules cfg fuel res exp fr = some ks →
      ∀ k ∈ ks, cfg.minKeyLength ≤ k.length := by
  intro fuel
  induction fuel with
  | zero =>
    intro res exp fr ks hres hloop
    cases fr with
    | nil =>
      rw [encodeLoop, Option.some_inj] at hloop
      exact hloop ▸ hres
    | cons s rest => exact absurd hloop (by rw [encodeLoop]; simp)
  | succ fuel ih =>
    intro res exp fr ks hres hloop
    cases fr with
    | nil =>
      rw [encodeLoop, Option.some_inj] at hloop
      exact hloop ▸ hres
    | cons s rest =>
      rw [encodeLoop] at hloop
      exact ih _ _ _ _ (encodeBody_res_minKey text rules cfg res exp s rest hres) hloop

lemma encodeWithRules_minKey (fuel : Nat) (text : Str) (lr : LanguageRules)
    (cfg : BMPMConfig) (ks : Finset Str)
    (h : encodeWithRules fuel text lr cfg = some ks) :
    ∀ k ∈ ks, cfg.minKeyLength ≤ k.length :=
  encodeLoop_minKey text lr.rules cfg fuel ∅ 0 [⟨0, []⟩] ks
    (fun k hk => absurd hk (Finset.not_mem_empty k)) h

lemma encodeLangs_minKey (pf : UPlatform) (fuel : Nat) (rawD : Str) (cfg : BMPMConfig) :
    ∀ (ls : List (Str × ℚ)) (out : List EncodeResult),
      encodeLangs pf fuel rawD cfg ls = some out →
      ∀ er ∈ out, ∀ k ∈ er.keys, cfg.minKeyLength ≤ k.length := by
  intro ls
  induction ls with
  | nil =>
    intro out h er her
    rw [encodeLangs, Option.some_inj] at h
    rw [← h] at her
    exact absurd her (List.not_mem_nil er)
  | cons p ls ih =>
    intro out h er her
    obtain ⟨lang, sc⟩ := p
    simp only [encodeLangs] at h
    split at h
    · exact ih out h er her
    · next lr hrs =>
      split at h
      · exact ih out h er her
      · split at h
        · exact absurd h (by simp)
        · next keys hk =>
          split at h
          · exact absurd h (by simp)
          · next out' hrest =>
            rw [Option.some_inj] at h
            subst h
            by_cases hke : keys = ∅
            · rw [if_pos hke] at her
              exact ih out' hrest er her
            · rw [if_neg hke] at her
              rcases List.mem_cons.mp her with rfl | her'
              · exact encodeWithRules_minKey fuel _ lr cfg keys hk
              · exact ih out' hrest er her'

/-- Claim C7: every key in every key set returned by `encodeWithRules`, and
every key of every `EncodeResult` returned by `bmpmEncode`, has length at
least `minKeyLength`. -/
theorem claim_C7 :
    (∀ (fuel : Nat) (text : Str) (lr : LanguageRules) (cfg : BMPMConfig) (ks : Finset Str),
      encodeWithRules fuel text lr cfg = some ks →
      ∀ k ∈ ks, cfg.minKeyLength ≤ k.length)
    ∧ (∀ (pf : UPlatform) (fuel : Nat) (raw : Str) (cfg : BMPMConfig)
        (out : List EncodeResult),
        bmpmEncodeF pf fuel raw cfg = some out →
        ∀ er ∈ out, ∀ k ∈ er.keys, cfg.minKeyLength ≤ k.length) := by
  refine ⟨encodeWithRules_minKey, ?_⟩
  intro pf fuel raw cfg out h er her
  unfold bmpmEncodeF at h
  split at h
  · rw [Option.some_inj] at h
    rw [← h] at her
    exact absurd her (List.not_mem_nil er)
  · exact encodeLangs_minKey pf fuel _ cfg _ out h er her

/-- Claim C7 witness: the invariant evaluated on the concrete EXACT
configuration (whose `minKeyLength` is 1). -/
theorem claim_C7_witness :
    (∀ k ∈ keysAeC2, exactCfgC2.minKeyLength ≤ k.length)
    ∧ (∀ er ∈ [(⟨langL, keysAeC2⟩ : EncodeResult)], ∀ k ∈ er.keys,
        exactCfgC2.minKeyLength ≤ k.length) :=
  ⟨claim_C7.1 20 (strL "a") rulesC2 exactCfgC2 keysAeC2 rfl,
    claim_C7.2 idPlatform 20 (strL "a") exactCfgC2 [⟨langL, keysAeC2⟩] encA_exactC2⟩

/- ------------------------------------------------------------------ -/
/- Termination measure lemmas (claim C1)                               -/
/- ------------------------------------------------------------------ -/

lemma frontierMeasure_cons (B len : Nat) (s : EncodeState) (fr : List EncodeState) :
    frontierMeasure B len (s :: fr) = stateWeight B len s + frontierMeasure B len fr := by
  unfold frontierMeasure
  rw [List.map_cons, List.sum_cons]

lemma frontierMeasure_append (B len : Nat) (l1 l2 : List EncodeState) :
    frontierMeasure B len (l1 ++ l2)
      = frontierMeasure B len l1 + frontierMeasure B len l2 := by
  unfold frontierMeasure
  rw [List.map_append, List.sum_append]

lemma frontierMeasure_singleton (B len : Nat) (s : EncodeState) :
    frontierMeasure B len [s] = stateWeight B len s := by
  unfold frontierMeasure
  simp

lemma stateWeight_pos {B : Nat} (len : Nat) (s : EncodeState) (hB : 0 < B) :
    0 < stateWeight B len s := by
  unfold stateWeight
  exact Nat.pos_pow_of_pos _ hB

lemma frontierMeasure_perm {B len : Nat} {l1 l2 : List EncodeState} (h : l1.Perm l2) :
    frontierMeasure B len l1 = frontierMeasure B len l2 :=
  (h.map (stateWeight B len)).sum_eq

lemma frontierMeasure_take_le (B len n : Nat) (l : List EncodeState) :
    frontierMeasure B len (l.take n) ≤ frontierMeasure B len l := by
  conv_rhs => rw [← List.take_append_drop n l]
  rw [frontierMeasure_append]
  omega

lemma frontierMeasure_prune_le (B len : Nat) (fr : List EncodeState) :
    frontierMeasure B len (pruneFrontier fr) ≤ frontierMeasure B len fr := by
  unfold pruneFrontier
  refine le_trans (frontierMeasure_take_le B len 1024 _) ?_
  exact le_of_eq (frontierMeasure_perm (perm_stableSortBy frontierLt fr))

lemma pushFold_measure (cfg : BMPMConfig) (B len : Nat) (s : EncodeState) (W : Nat) :
    ∀ (ps : List (Rule × Str)) (e : Nat) (fr : List EncodeState),
      (∀ p ∈ ps, stateWeight B len ⟨s.pos + effConsume p.1, stepKey cfg s.key p.2⟩ ≤ W) →
      frontierMeasure B len
          ((ps.foldl (fun st p =>
            stepPush cfg st ⟨s.pos + effConsume p.1, stepKey cfg s.key p.2⟩) (e, fr)).2)
        ≤ frontierMeasure B len fr + ps.length * W := by
  intro ps
  induction ps with
  | nil =>
    intro e fr h
    simp
  | cons p ps ih =>
    intro e fr h
    rw [List.foldl_cons]
    have hW := h p (List.mem_cons_self _ _)
    have hx : frontierMeasure B len
        (stepPush cfg (e, fr) ⟨s.pos + effConsume p.1, stepKey cfg s.key p.2⟩).2
        ≤ frontierMeasure B len fr + W := by
      simp only [stepPush]
      split
      · refine le_trans (frontierMeasure_prune_le B len _) ?_
        rw [frontierMeasure_append, frontierMeasure_singleton]
        omega
      · rw [frontierMeasure_append, frontierMeasure_singleton]
        omega
    have hrec := ih (stepPush cfg (e, fr) ⟨s.pos + effConsume p.1, stepKey cfg s.key p.2⟩).1
      (stepPush cfg (e, fr) ⟨s.pos + effConsume p.1, stepKey cfg s.key p.2⟩).2
      (fun q hq => h q (List.mem_cons_of_mem _ hq))
    have hlen : (p :: ps).length * W = ps.length * W + W := by
      rw [List.length_cons]
      ring
    rw [hlen]
    exact le_trans hrec (by omega)

lemma rulePushList_fst_mem {l : List Rule} {p : Rule × Str} (h : p ∈ rulePushList l) :
    p.1 ∈ l := by
  induction l with
  | nil => cases h
  | cons r rs ih =>
    have h' : p ∈ (r.outputs.map fun o => (r, o)) ++ rulePushList rs := h
    rcases List.mem_append.mp h' with h1 | h1
    · rcases List.mem_map.mp h1 with ⟨o, _, rfl⟩
      exact List.mem_cons_self _ _
    · exact List.mem_cons_of_mem _ (ih h1)

lemma selectApplicableRules_sublist (text : Str) (pos : Nat) (rules : List Rule) :
    (selectApplicableRules text pos rules).Sublist rules := by
  simp only [selectApplicableRules]
  split
  · exact List.nil_sublist _
  · exact ((List.filter_sublist _).trans (List.filter_sublist _)).trans
      (List.filter_sublist _)

lemma totalOutputs_sublist_le {l1 l2 : List Rule} (h : l1.Sublist l2) :
    totalOutputs l1 ≤ totalOutputs l2 := by
  unfold totalOutputs
  induction h with
  | slnil => exact le_refl _
  | cons r _ ih =>
    rw [List.map_cons, List.sum_cons]
    omega
  | cons₂ r _ ih =>
    rw [List.map_cons, List.sum_cons, List.map_cons, List.sum_cons]
    omega

lemma rulePushList_length_le (text : Str) (pos : Nat) (rules : List Rule) :
    (rulePushList (selectApplicableRules text pos rules)).length ≤ totalOutputs rules := by
  rw [rulePushList_length]
  exact totalOutputs_sublist_le (selectApplicableRules_sublist text pos rules)

lemma encodeBody_measure_lt (text : Str) (rules : List Rule) (cfg : BMPMConfig)
    (hcons : ∀ r ∈ rules, 1 ≤ effConsume r)
    (res : Finset Str) (exp : Nat) (s : EncodeState) (rest : List EncodeState) :
    frontierMeasure (branchBound rules) text.length
        (encodeBody text rules cfg res exp s rest).2.2
      < frontierMeasure (branchBound rules) text.length (s :: rest) := by
  set B := branchBound rules with hB
  set len := text.length with hlen
  have hB2 : 2 ≤ B := by
    rw [hB]
    unfold branchBound
    omega
  have hwpos : 0 < stateWeight B len s := stateWeight_pos len s (by omega)
  rw [frontierMeasure_cons]
  simp only [encodeBody]
  split
  · next hpos =>
    have hd : len + 1 - s.pos = (len - s.pos) + 1 := by omega
    have hsw : stateWeight B len s = B ^ (len - s.pos) * B := by
      unfold stateWeight
      rw [hd, pow_succ]
    have hdpos : 0 < B ^ (len - s.pos) := Nat.pos_pow_of_pos _ (by omega)
    have hstep : ∀ (k : Str) (p' : Nat), s.pos + 1 ≤ p' →
        stateWeight B len ⟨p', k⟩ ≤ B ^ (len - s.pos) := by
      intro k p' hp'
      show B ^ (len + 1 - p') ≤ B ^ (len - s.pos)
      exact Nat.pow_le_pow_right (by omega) (by omega)
    have hx2 : B ^ (len - s.pos) * 2 ≤ B ^ (len - s.pos) * B :=
      Nat.mul_le_mul (le_refl _) hB2
    split
    · rw [frontierMeasure_append, frontierMeasure_singleton]
      have h1 := hstep s.key (s.pos + 1) (le_refl _)
      rw [hsw]
      omega
    · split
      · rw [frontierMeasure_append, frontierMeasure_singleton]
        have h1 := hstep (s.key ++ fallbackMapChar (text.getD s.pos ' ') cfg.ruleType)
          (s.pos + 1) (le_refl _)
        rw [hsw]
        omega
      · have hcount : (rulePushList (selectApplicableRules text s.pos rules)).length
            ≤ totalOutputs rules := rulePushList_length_le text s.pos rules
        have hWall : ∀ p ∈ rulePushList (selectApplicableRules text s.pos rules),
            stateWeight B len ⟨s.pos + effConsume p.1, stepKey cfg s.key p.2⟩
              ≤ B ^ (len - s.pos) := by
          intro p hp
          have hmem : p.1 ∈ rules :=
            (selectApplicableRules_sublist text s.pos rules).subset
              (rulePushList_fst_mem hp)
          exact hstep _ _ (by have := hcons p.1 hmem; omega)
        have hfold := pushFold_measure cfg B len s (B ^ (len - s.pos))
          (rulePushList (selectApplicableRules text s.pos rules)) exp rest hWall
        have hcb : (rulePushList (selectApplicableRules text s.pos rules)).length
              * B ^ (len - s.pos)
            ≤ totalOutputs rules * B ^ (len - s.pos) :=
          Nat.mul_le_mul hcount (le_refl _)
        have htot : totalOutputs rules * B ^ (len - s.pos) + 2 * B ^ (len - s.pos)
            = B ^ (len - s.pos) * B := by
          rw [hB]
          unfold branchBound
          ring
        rw [hsw]
        show frontierMeasure B len
            ((rulePushList (selectApplicableRules text s.pos rules)).foldl
              (fun st p => stepPush cfg st ⟨s.pos + effConsume p.1, stepKey cfg s.key p.2⟩)
              (exp, rest)).2
          < B ^ (len - s.pos) * B + frontierMeasure B len rest
        omega
  · show frontierMeasure B len rest < stateWeight B len s + frontierMeasure B len rest
    omega

lemma encodeLoop_halts (text : Str) (rules : List Rule) (cfg : BMPMConfig)
    (hcons : ∀ r ∈ rules, 1 ≤ effConsume r) :
    ∀ (fuel : Nat) (fr : List EncodeState) (res : Finset Str) (exp : Nat),
      frontierMeasure (branchBound rules) text.length fr ≤ fuel →
      (encodeLoop text rules cfg fuel res exp fr).isSome = true := by
  intro fuel
  induction fuel with
  | zero =>
    intro fr res exp hm
    cases fr with
    | nil =>
      rw [encodeLoop]
      rfl
    | cons s rest =>
      exfalso
      have hpos : 0 < frontierMeasure (branchBound rules) text.length (s :: rest) := by
        rw [frontierMeasure_cons]
        have := stateWeight_pos (B := branchBound rules) text.length s
          (by unfold branchBound; omega)
        omega
      omega
  | succ fuel ih =>
    intro fr res exp hm
    cases fr with
    | nil =>
      rw [encodeLoop]
      rfl
    | cons s rest =>
      simp only [encodeLoop]
      apply ih
      have hlt := encodeBody_measure_lt text rules cfg hcons res exp s rest
      omega

lemma encodeWithRules_halts (text : Str) (lr : LanguageRules) (cfg : BMPMConfig)
    (hcons : ∀ r ∈ lr.rules, 1 ≤ effConsume r) :
    ∃ fuel, (encodeWithRules fuel text lr cfg).isSome = true :=
  ⟨frontierMeasure (branchBound lr.rules) text.length [⟨0, []⟩],
    encodeLoop_halts text lr.rules cfg hcons _ [⟨0, []⟩] ∅ 0 (le_refl _)⟩

/- ------------------------------------------------------------------ -/
/- Frontier bound on reachable loop states (claim C1)                  -/
/- ------------------------------------------------------------------ -/

lemma pushFold_inv (cfg : BMPMConfig) (s : EncodeState) :
    ∀ (ps : List (Rule × Str)) (e : Nat) (fr : List EncodeState),
      ((e ≤ cfg.maxExpansions ∧ fr.length ≤ e) ∨ (cfg.maxExpansions < e ∧ fr.length ≤ 1024)) →
      (((ps.foldl (fun st p =>
            stepPush cfg st ⟨s.pos + effConsume p.1, stepKey cfg s.key p.2⟩) (e, fr)).1
          ≤ cfg.maxExpansions
        ∧ ((ps.foldl (fun st p =>
            stepPush cfg st ⟨s.pos + effConsume p.1, stepKey cfg s.key p.2⟩) (e, fr)).2).length
          ≤ (ps.foldl (fun st p =>
            stepPush cfg st ⟨s.pos + effConsume p.1, stepKey cfg s.key p.2⟩) (e, fr)).1)
      ∨ (cfg.maxExpansions
          < (ps.foldl (fun st p =>
            stepPush cfg st ⟨s.pos + effConsume p.1, stepKey cfg s.key p.2⟩) (e, fr)).1
        ∧ ((ps.foldl (fun st p =>
            stepPush cfg st ⟨s.pos + effConsume p.1, stepKey cfg s.key p.2⟩) (e, fr)).2).length
          ≤ 1024)) := by
  intro ps
  induction ps with
  | nil =>
    intro e fr h
    exact h
  | cons p ps ih =>
    intro e fr h
    rw [List.foldl_cons]
    have hstep : ((stepPush cfg (e, fr) ⟨s.pos + effConsume p.1, stepKey cfg s.key p.2⟩).1
          ≤ cfg.maxExpansions
        ∧ ((stepPush cfg (e, fr) ⟨s.pos + effConsume p.1, stepKey cfg s.key p.2⟩).2).length
          ≤ (stepPush cfg (e, fr) ⟨s.pos + effConsume p.1, stepKey cfg s.key p.2⟩).1)
      ∨ (cfg.maxExpansions
          < (stepPush cfg (e, fr) ⟨s.pos + effConsume p.1, stepKey cfg s.key p.2⟩).1
        ∧ ((stepPush cfg (e, fr) ⟨s.pos + effConsume p.1, stepKey cfg s.key p.2⟩).2).length
          ≤ 1024) := by
      simp only [stepPush]
      split
      · next hover =>
        right
        refine ⟨hover, ?_⟩
        rw [pruneFrontier_length]
        omega
      · next hunder =>
        left
        rw [List.length_append]
        rcases h with ⟨h1, h2⟩ | ⟨h1, h2⟩
        · exact ⟨by omega, by simp; omega⟩
        · omega
    have := ih (stepPush cfg (e, fr) ⟨s.pos + effConsume p.1, stepKey cfg s.key p.2⟩).1
      (stepPush cfg (e, fr) ⟨s.pos + effConsume p.1, stepKey cfg s.key p.2⟩).2 hstep
    exact this

lemma encodeBody_inv (text : Str) (rules : List Rule) (cfg : BMPMConfig)
    (res : Finset Str) (exp : Nat) (s : EncodeState) (rest : List EncodeState)
    (h : (exp ≤ cfg.maxExpansions ∧ (s :: rest).length ≤ exp + 1)
      ∨ (cfg.maxExpansions < exp ∧ (s :: rest).length ≤ 1024)) :
    ((encodeBody text rules cfg res exp s rest).2.1 ≤ cfg.maxExpansions
      ∧ ((encodeBody text rules cfg res exp s rest).2.2).length
        ≤ (encodeBody text rules cfg res exp s rest).2.1 + 1)
    ∨ (cfg.maxExpansions < (encodeBody text rules cfg res exp s rest).2.1
      ∧ ((encodeBody text rules cfg res exp s rest).2.2).length ≤ 1024) := by
  rw [List.length_cons] at h
  simp only [encodeBody]
  split
  · split
    · show (exp ≤ cfg.maxExpansions
          ∧ (rest ++ [(⟨s.pos + 1, s.key⟩ : EncodeState)]).length ≤ exp + 1)
        ∨ (cfg.maxExpansions < exp
          ∧ (rest ++ [(⟨s.pos + 1, s.key⟩ : EncodeState)]).length ≤ 1024)
      rw [List.length_append, List.length_singleton]
      omega
    · split
      · show (exp ≤ cfg.maxExpansions
            ∧ (rest ++ [(⟨s.pos + 1,
                s.key ++ fallbackMapChar (text.getD s.pos ' ') cfg.ruleType⟩ : EncodeState)]).length
              ≤ exp + 1)
          ∨ (cfg.maxExpansions < exp
            ∧ (rest ++ [(⟨s.pos + 1,
                s.key ++ fallbackMapChar (text.getD s.pos ' ') cfg.ruleType⟩ : EncodeState)]).length
              ≤ 1024)
        rw [List.length_append, List.length_singleton]
        omega
      · show (((rulePushList (selectApplicableRules text s.pos rules)).foldl
              (fun st p => stepPush cfg st ⟨s.pos + effConsume p.1, stepKey cfg s.key p.2⟩)
              (exp, rest)).1 ≤ cfg.maxExpansions
            ∧ (((rulePushList (selectApplicableRules text s.pos rules)).foldl
              (fun st p => stepPush cfg st ⟨s.pos + effConsume p.1, stepKey cfg s.key p.2⟩)
              (exp, rest)).2).length
              ≤ ((rulePushList (selectApplicableRules text s.pos rules)).foldl
              (fun st p => stepPush cfg st ⟨s.pos + effConsume p.1, stepKey cfg s.key p.2⟩)
              (exp, rest)).1 + 1)
          ∨ (cfg.maxExpansions
              < ((rulePushList (selectApplicableRules text s.pos rules)).foldl
              (fun st p => stepPush cfg st ⟨s.pos + effConsume p.1, stepKey cfg s.key p.2⟩)
              (exp, rest)).1
            ∧ (((rulePushList (selectApplicableRules text s.pos rules)).foldl
              (fun st p => stepPush cfg st ⟨s.pos + effConsume p.1, stepKey cfg s.key p.2⟩)
              (exp, rest)).2).length ≤ 1024)
        have hfold := pushFold_inv cfg s
          (rulePushList (selectApplicableRules text s.pos rules)) exp rest (by omega)
        rcases hfold with ⟨h1, h2⟩ | ⟨h1, h2⟩
        · exact Or.inl ⟨h1, by omega⟩
        · exact Or.inr ⟨h1, h2⟩
  · show (exp ≤ cfg.maxExpansions ∧ rest.length ≤ exp + 1)
      ∨ (cfg.maxExpansions < exp ∧ rest.length ≤ 1024)
    omega

lemma encodeReach_inv (text : Str) (rules : List Rule) (cfg : BMPMConfig) :
    ∀ (res : Finset Str) (exp : Nat) (fr : List EncodeState),
      EncodeReach text rules cfg res exp fr →
      ((exp ≤ cfg.maxExpansions ∧ fr.length ≤ exp + 1)
        ∨ (cfg.maxExpansions < exp ∧ fr.length ≤ 1024)) := by
  intro res exp fr h
  induction h with
  | init =>
    left
    exact ⟨Nat.zero_le _, by simp⟩
  | step hreach ih => exact encodeBody_inv _ _ _ _ _ _ _ ih

lemma mergeScanGo_congr (m : List (Str × Str)) (symbols : List Str)
    (hsym : ∀ sym ∈ symbols, sym ≠ []) :
    ∀ (n : Nat) (key : Str), key.length ≤ n →
      ∀ (f g : Nat), key.length ≤ f → key.length ≤ g →
        mergeScanGo m symbols f key = mergeScanGo m symbols g key := by
  intro n
  induction n with
  | zero =>
    intro key hk f g _ _
    have hkey : key = [] := List.length_eq_zero.mp (Nat.le_zero.mp hk)
    subst hkey
    cases f <;> cases g <;> rfl
  | succ n ih =>
    intro key hk f g hf hg
    cases key with
    | nil => cases f <;> cases g <;> rfl
    | cons c rest =>
      rw [List.length_cons] at hk hf hg
      cases f with
      | zero => omega
      | succ f' =>
        cases g with
        | zero => omega
        | succ g' =>
          show (match symbols.find? (fun sym => sym.isPrefixOf (c :: rest)) with
              | some sym => mergerLookup m sym
                  ++ mergeScanGo m symbols f' ((c :: rest).drop sym.length)
              | none => c :: mergeScanGo m symbols f' rest)
            = (match symbols.find? (fun sym => sym.isPrefixOf (c :: rest)) with
              | some sym => mergerLookup m sym
                  ++ mergeScanGo m symbols g' ((c :: rest).drop sym.length)
              | none => c :: mergeScanGo m symbols g' rest)
          cases hfind : symbols.find? (fun sym => sym.isPrefixOf (c :: rest)) with
          | none =>
            exact congrArg (c :: ·) (ih rest (by omega) f' g' (by omega) (by omega))
          | some sym =>
            have hmem := List.mem_of_find?_eq_some hfind
            have hlen : 1 ≤ sym.length := List.length_pos.mpr (hsym sym hmem)
            have hdrop : ((c :: rest).drop sym.length).length
                = rest.length + 1 - sym.length := by
              rw [List.length_drop, List.length_cons]
            refine congrArg (mergerLookup m sym ++ ·)
              (ih ((c :: rest).drop sym.length) ?_ f' g' ?_ ?_) <;> omega

lemma applyMergerTable_fuel_stable (key : Str) (m : List (Str × Str))
    (hm : ∀ p ∈ m, p.1 ≠ []) (f : Nat) (hf : key.length ≤ f) :
    mergeScanGo m
        (stableSortBy (fun a b => decide (b.length < a.length)) (m.map Prod.fst)) f key
      = applyMergerTable key (some m) := by
  have hsym : ∀ sym ∈ stableSortBy (fun a b => decide (b.length < a.length))
      (m.map Prod.fst), sym ≠ [] := by
    intro sym hs
    have hs' : sym ∈ m.map Prod.fst := (perm_stableSortBy _ _).mem_iff.mp hs
    rcases List.mem_map.mp hs' with ⟨p, hp, rfl⟩
    exact hm p hp
  show mergeScanGo m
      (stableSortBy (fun a b => decide (b.length < a.length)) (m.map Prod.fst)) f key
    = mergeScanGo m
      (stableSortBy (fun a b => decide (b.length < a.length)) (m.map Prod.fst))
      key.length key
  exact mergeScanGo_congr m _ hsym f key hf f key.length hf (le_refl _)

/- ------------------------------------------------------------------ -/
/- Claim C1                                                            -/
/- ------------------------------------------------------------------ -/

lemma badStep (e : Nat) : stepPush badCfg (e, []) ⟨0, []⟩ = (e + 1, [⟨0, []⟩]) := by
  simp only [stepPush]
  split <;> rfl

lemma badBody (res : Finset Str) (exp : Nat) :
    encodeBody (strL "a") badLR.rules badCfg res exp ⟨0, []⟩ []
      = (res, exp + 1, [⟨0, []⟩]) := by
  rw [show encodeBody (strL "a") badLR.rules badCfg res exp ⟨0, []⟩ []
      = (res, (stepPush badCfg (exp, []) ⟨0, []⟩).1,
          (stepPush badCfg (exp, []) ⟨0, []⟩).2) from rfl,
    badStep exp]

lemma badLoop_none : ∀ (fuel : Nat) (res : Finset Str) (exp : Nat),
    encodeLoop (strL "a") badLR.rules badCfg fuel res exp [⟨0, []⟩] = none := by
  intro fuel
  induction fuel with
  | zero =>
    intro res exp
    rfl
  | succ fuel ih =>
    intro res exp
    show encodeLoop (strL "a") badLR.rules badCfg fuel
        (encodeBody (strL "a") badLR.rules badCfg res exp ⟨0, []⟩ []).1
        (encodeBody (strL "a") badLR.rules badCfg res exp ⟨0, []⟩ []).2.1
        (encodeBody (strL "a") badLR.rules badCfg res exp ⟨0, []⟩ []).2.2 = none
    rw [badBody]
    exact ih res (exp + 1)

/-- Claim C1, counterexample: a rule whose declared consumed length is zero
makes `encodeWithRules` loop forever (the frontier element at cursor 0 is
re-pushed at cursor 0 on every iteration), so the breadth-first expansion is
not total over arbitrary consumed lengths. -/
theorem claim_C1_counterexample :
    ¬ ∃ fuel : Nat, (encodeWithRules fuel (strL "a") badLR badCfg).isSome = true := by
  rintro ⟨fuel, hf⟩
  rw [show encodeWithRules fuel (strL "a") badLR badCfg = none from badLoop_none fuel ∅ 0] at hf
  exact absurd hf (by simp)

/-- Claim C1 (amended): `encodeWithRules` terminates for every input text and
configuration whenever every rule of the rule set has effective consumed
length at least one (which holds for every rule whose `consumes` is positive
or absent with a nonempty pattern) and, in APPROX mode, every merger-table
key is a nonempty string; and on every input — arbitrary consumed lengths
included — the frontier of every reachable loop state stays bounded by
`max (maxExpansions + 1) 1024`.  With a zero consumed length the loop need
not terminate, and an empty merger-table key makes the finalization scan of
the source loop forever, which is why both hypotheses are needed. -/
theorem claim_C1_amended :
    (∀ (text : Str) (lr : LanguageRules) (cfg : BMPMConfig),
      (∀ r ∈ lr.rules, 1 ≤ effConsume r) →
      (cfg.ruleType = RuleType.APPROX →
        ∀ m, cfg.mergerTable = some m → ∀ p ∈ m, p.1 ≠ []) →
      ∃ fuel, (encodeWithRules fuel text lr cfg).isSome = true)
    ∧ (∀ (text : Str) (rules : List Rule) (cfg : BMPMConfig)
        (res : Finset Str) (exp : Nat) (fr : List EncodeState),
        EncodeReach text rules cfg res exp fr →
        fr.length ≤ max (cfg.maxExpansions + 1) 1024) := by
  constructor
  · exact fun text lr cfg hcons _ => encodeWithRules_halts text lr cfg hcons
  · intro text rules cfg res exp fr h
    rcases encodeReach_inv text rules cfg res exp fr h with ⟨h1, h2⟩ | ⟨_, h2⟩
    · exact le_trans h2 (le_trans (by omega) (le_max_left _ _))
    · exact le_trans h2 (le_max_right _ _)

/-- Claim C1 witness: termination at a concrete APPROX configuration with a
nonempty-keyed merger table, and the frontier bound at the initial loop
state. -/
theorem claim_C1_witness :
    (∃ fuel, (encodeWithRules fuel (strL "a") rulesC2 approxCfgC2).isSome = true)
    ∧ ([(⟨0, []⟩ : EncodeState)].length ≤ max (approxCfgC2.maxExpansions + 1) 1024) :=
  ⟨claim_C1_amended.1 (strL "a") rulesC2 approxCfgC2 (by decide)
      (fun _ m hm => by
        rw [show approxCfgC2.mergerTable
            = some [(strL "X", strL "Z"), (strL "Y", strL "Z")] from rfl] at hm
        cases hm
        decide),
    claim_C1_amended.2 (strL "a") rulesC2.rules approxCfgC2 ∅ 0 [⟨0, []⟩]
      EncodeReach.init⟩

/- ------------------------------------------------------------------ -/
/- Preprocess idempotence (claim C10)                                  -/
/- ------------------------------------------------------------------ -/

lemma azBundle : ∀ c ∈ azChars, isMark c = false ∧ isSpaceCh c = false
    ∧ preAllowed c = true
    ∧ (c ≠ 'ß' ∧ c ≠ 'ä' ∧ c ≠ 'ö' ∧ c ≠ 'ü') := by decide

lemma replRuns_id (p : Char → Bool) : ∀ l : Str, (∀ c ∈ l, p c = true) →
    replRuns p false l = l := by
  intro l
  induction l with
  | nil => intro _; rfl
  | cons c cs ih =>
    intro h
    show (if p c then c :: replRuns p false cs else ' ' :: replRuns p true cs) = c :: cs
    rw [if_pos (h c (List.mem_cons_self _ _)),
      ih (fun d hd => h d (List.mem_cons_of_mem _ hd))]

lemma replaceChar_id (t : Char) (out : Str) : ∀ l : Str, (∀ c ∈ l, c ≠ t) →
    replaceChar t out l = l := by
  intro l
  induction l with
  | nil => intro _; rfl
  | cons c cs ih =>
    intro h
    show (if c = t then out ++ replaceChar t out cs else c :: replaceChar t out cs) = c :: cs
    rw [if_neg (h c (List.mem_cons_self _ _)),
      ih (fun d hd => h d (List.mem_cons_of_mem _ hd))]

lemma replRuns_flag_eq (q : Char → Bool) (cs : Str)
    (h : ∀ d, cs.head? = some d → q d = true) :
    replRuns q true cs = replRuns q false cs := by
  cases cs with
  | nil => rfl
  | cons d ds =>
    have hd := h d rfl
    show (if q d then d :: replRuns q false ds else replRuns q true ds)
      = (if q d then d :: replRuns q false ds else ' ' :: replRuns q true ds)
    rw [if_pos hd, if_pos hd]

lemma collapseWs_id : ∀ l : Str,
    (∀ c ∈ l, (!isSpaceCh c) = true ∨ c = ' ') →
    List.Chain' (fun a b => (!isSpaceCh a) = true ∨ (!isSpaceCh b) = true) l →
    collapseWs l = l := by
  intro l
  induction l with
  | nil => intro _ _; rfl
  | cons c cs ih =>
    intro hch h
    rcases List.chain'_cons'.mp h with ⟨hhead, htail⟩
    have hrest : replRuns (fun a => !isSpaceCh a) false cs = cs :=
      ih (fun d hd => hch d (List.mem_cons_of_mem _ hd)) htail
    show (if !isSpaceCh c then c :: replRuns (fun a => !isSpaceCh a) false cs
        else ' ' :: replRuns (fun a => !isSpaceCh a) true cs) = c :: cs
    by_cases hc : (!isSpaceCh c) = true
    · rw [if_pos hc, hrest]
    · have hcEq : c = ' ' := by
        rcases hch c (List.mem_cons_self _ _) with h1 | h1
        · exact absurd h1 hc
        · exact h1
      rw [if_neg hc]
      rw [replRuns_flag_eq _ cs (fun d hd => by
        rcases hhead d (Option.mem_def.mpr hd) with h1 | h1
        · exact absurd h1 hc
        · exact h1)]
      rw [hrest, hcEq]

lemma dropWhile_id (p : Char → Bool) (l : Str)
    (h : ∀ c, l.head? = some c → p c = false) : l.dropWhile p = l := by
  cases l with
  | nil => rfl
  | cons c cs =>
    rw [List.dropWhile_cons, h c rfl]
    simp

lemma trimStr_id (l : Str)
    (h1 : ∀ c, l.head? = some c → isSpaceCh c = false)
    (h2 : ∀ c, l.getLast? = some c → isSpaceCh c = false) :
    trimStr l = l := by
  unfold trimStr
  rw [dropWhile_id _ l h1]
  rw [dropWhile_id _ l.reverse (fun c hc => h2 c (by rwa [List.head?_reverse] at hc))]
  exact List.reverse_reverse l

lemma replRuns_chars (p : Char → Bool) : ∀ (l : Str) (b : Bool) (c : Char),
    c ∈ replRuns p b l → (c ∈ l ∧ p c = true) ∨ c = ' ' := by
  intro l
  induction l with
  | nil =>
    intro b c hc
    cases b <;> cases hc
  | cons d ds ih =>
    intro b c hc
    by_cases hd : p d = true
    · have hform : replRuns p b (d :: ds) = d :: replRuns p false ds := by
        cases b
        · show (if p d then d :: replRuns p false ds else ' ' :: replRuns p true ds) = _
          rw [if_pos hd]
        · show (if p d then d :: replRuns p false ds else replRuns p true ds) = _
          rw [if_pos hd]
      rw [hform] at hc
      rcases List.mem_cons.mp hc with rfl | hc'
      · exact Or.inl ⟨List.mem_cons_self _ _, hd⟩
      · rcases ih false c hc' with ⟨hm, hp⟩ | hs
        · exact Or.inl ⟨List.mem_cons_of_mem _ hm, hp⟩
        · exact Or.inr hs
    · cases b
      · have hform : replRuns p false (d :: ds) = ' ' :: replRuns p true ds := by
          show (if p d then d :: replRuns p false ds else ' ' :: replRuns p true ds) = _
          rw [if_neg hd]
        rw [hform] at hc
        rcases List.mem_cons.mp hc with rfl | hc'
        · exact Or.inr rfl
        · rcases ih true c hc' with ⟨hm, hp⟩ | hs
          · exact Or.inl ⟨List.mem_cons_of_mem _ hm, hp⟩
          · exact Or.inr hs
      · have hform : replRuns p true (d :: ds) = replRuns p true ds := by
          show (if p d then d :: replRuns p false ds else replRuns p true ds) = _
          rw [if_neg hd]
        rw [hform] at hc
        rcases ih true c hc with ⟨hm, hp⟩ | hs
        · exact Or.inl ⟨List.mem_cons_of_mem _ hm, hp⟩
        · exact Or.inr hs

lemma replaceChar_chars (t : Char) (out : Str) : ∀ (l : Str) (c : Char),
    c ∈ replaceChar t out l → c ∈ out ∨ (c ∈ l ∧ c ≠ t) := by
  intro l
  induction l with
  | nil =>
    intro c hc
    cases hc
  | cons d ds ih =>
    intro c hc
    rw [show replaceChar t out (d :: ds)
        = if d = t then out ++ replaceChar t out ds else d :: replaceChar t out ds
      from rfl] at hc
    by_cases hd : d = t
    · rw [if_pos hd] at hc
      rcases List.mem_append.mp hc with h1 | h1
      · exact Or.inl h1
      · rcases ih c h1 with h2 | ⟨h2, h3⟩
        · exact Or.inl h2
        · exact Or.inr ⟨List.mem_cons_of_mem _ h2, h3⟩
    · rw [if_neg hd] at hc
      rcases List.mem_cons.mp hc with rfl | h1
      · exact Or.inr ⟨List.mem_cons_self _ _, hd⟩
      · rcases ih c h1 with h2 | ⟨h2, h3⟩
        · exact Or.inl h2
        · exact Or.inr ⟨List.mem_cons_of_mem _ h2, h3⟩

lemma replRuns_true_head (q : Char → Bool) : ∀ (l : Str) (c : Char),
    (replRuns q true l).head? = some c → q c = true := by
  intro l
  induction l with
  | nil =>
    intro c hc
    exact absurd hc (by simp [replRuns])
  | cons d ds ih =>
    intro c hc
    by_cases hd : q d = true
    · rw [show replRuns q true (d :: ds) = d :: replRuns q false ds from by
        show (if q d then d :: replRuns q false ds else replRuns q true ds) = _
        rw [if_pos hd]] at hc
      rw [List.head?_cons, Option.some_inj] at hc
      exact hc ▸ hd
    · rw [show replRuns q true (d :: ds) = replRuns q true ds from by
        show (if q d then d :: replRuns q false ds else replRuns q true ds) = _
        rw [if_neg hd]] at hc
      exact ih c hc

lemma replRuns_chain (q : Char → Bool) : ∀ (l : Str) (b : Bool),
    List.Chain' (fun a b => q a = true ∨ q b = true) (replRuns q b l) := by
  intro l
  induction l with
  | nil =>
    intro b
    cases b <;> exact List.chain'_nil
  | cons d ds ih =>
    intro b
    by_cases hd : q d = true
    · have hform : replRuns q b (d :: ds) = d :: replRuns q false ds := by
        cases b
        · show (if q d then d :: replRuns q false ds else ' ' :: replRuns q true ds) = _
          rw [if_pos hd]
        · show (if q d then d :: replRuns q false ds else replRuns q true ds) = _
          rw [if_pos hd]
      rw [hform]
      exact List.chain'_cons'.mpr ⟨fun y _ => Or.inl hd, ih false⟩
    · cases b
      · have hform : replRuns q false (d :: ds) = ' ' :: replRuns q true ds := by
          show (if q d then d :: replRuns q false ds else ' ' :: replRuns q true ds) = _
          rw [if_neg hd]
        rw [hform]
        refine List.chain'_cons'.mpr ⟨?_, ih true⟩
        intro y hy
        exact Or.inr (replRuns_true_head q ds y (Option.mem_def.mp hy))
      · have hform : replRuns q true (d :: ds) = replRuns q true ds := by
          show (if q d then d :: replRuns q false ds else replRuns q true ds) = _
          rw [if_neg hd]
        rw [hform]
        exact ih true

lemma head?_dropWhile (p : Char → Bool) : ∀ (l : Str) (c : Char),
    (l.dropWhile p).head? = some c → p c = false := by
  intro l
  induction l with
  | nil =>
    intro c hc
    exact absurd hc (by simp)
  | cons d ds ih =>
    intro c hc
    rw [List.dropWhile_cons] at hc
    by_cases hd : p d = true
    · rw [if_pos hd] at hc
      exact ih c hc
    · rw [if_neg hd] at hc
      rw [List.head?_cons, Option.some_inj] at hc
      have hd' : p d = false := by simpa using hd
      exact hc ▸ hd'

lemma getLast?_dropWhile (p : Char → Bool) (l : Str)
    (h : l.dropWhile p ≠ []) : (l.dropWhile p).getLast? = l.getLast? := by
  conv_rhs => rw [← List.takeWhile_append_dropWhile (p := p) (l := l)]
  rw [List.getLast?_append]
  cases hL : (l.dropWhile p).getLast? with
  | none => exact absurd (List.getLast?_eq_none_iff.mp hL) h
  | some x => rfl

lemma chain'_trim {R : Char → Char → Prop} (l : Str)
    (h : List.Chain' R l) : List.Chain' R (trimStr l) := by
  unfold trimStr
  have h1 : List.Chain' R (l.dropWhile isSpaceCh) :=
    h.suffix (List.dropWhile_suffix _)
  have h2 : List.Chain' (flip R) (l.dropWhile isSpaceCh).reverse := by
    rw [List.chain'_reverse]
    exact h1
  have h3 : List.Chain' (flip R) ((l.dropWhile isSpaceCh).reverse.dropWhile isSpaceCh) :=
    h2.suffix (List.dropWhile_suffix _)
  rw [List.chain'_reverse]
  exact h3

lemma trim_head (l : Str) : ∀ c, (trimStr l).head? = some c → isSpaceCh c = false := by
  intro c hc
  unfold trimStr at hc
  rw [List.head?_reverse] at hc
  by_cases hE : (l.dropWhile isSpaceCh).reverse.dropWhile isSpaceCh = []
  · rw [hE] at hc
    exact absurd hc (by simp)
  · rw [getLast?_dropWhile _ _ hE, List.getLast?_reverse] at hc
    exact head?_dropWhile _ _ _ hc

lemma trim_last (l : Str) : ∀ c, (trimStr l).getLast? = some c → isSpaceCh c = false := by
  intro c hc
  unfold trimStr at hc
  rw [List.getLast?_reverse] at hc
  exact head?_dropWhile _ _ _ hc

lemma mem_of_mem_trimStr {c : Char} {l : Str} (h : c ∈ trimStr l) : c ∈ l := by
  unfold trimStr at h
  have h1 := List.mem_reverse.mp h
  have h2 := (List.dropWhile_sublist _).subset h1
  have h3 := List.mem_reverse.mp h2
  exact (List.dropWhile_sublist _).subset h3

lemma mem_pair {c a b : Char} (h : c ∈ ([a, b] : Str)) : c = a ∨ c = b := by
  rcases List.mem_cons.mp h with rfl | h1
  · exact Or.inl rfl
  · rcases List.mem_cons.mp h1 with rfl | h2
    · exact Or.inr rfl
    · cases h2

lemma mem_quad {c a b d e : Char} (h : c ∈ ([a, b, d, e] : Str)) :
    c = a ∨ c = b ∨ c = d ∨ c = e := by
  rcases List.mem_cons.mp h with rfl | h1
  · exact Or.inl rfl
  · rcases List.mem_cons.mp h1 with rfl | h2
    · exact Or.inr (Or.inl rfl)
    · rcases List.mem_cons.mp h2 with rfl | h3
      · exact Or.inr (Or.inr (Or.inl rfl))
      · rcases List.mem_cons.mp h3 with rfl | h4
        · exact Or.inr (Or.inr (Or.inr rfl))
        · cases h4

lemma germanic_steps_chars (z : Str)
    (hz : ∀ c ∈ z, preAllowed c = true ∨ c = ' ') :
    ∀ c ∈ replaceChar 'ü' (strL "ue") (replaceChar 'ö' (strL "oe")
        (replaceChar 'ä' (strL "ae") (replaceChar 'ß' (strL "ss") z))),
      azCh c = true ∨ isSpaceCh c = true := by
  intro c hc
  rcases replaceChar_chars _ _ _ c hc with h1 | ⟨h1, hu⟩
  · rcases mem_pair ((show strL "ue" = ['u', 'e'] from rfl) ▸ h1) with rfl | rfl <;> decide
  · rcases replaceChar_chars _ _ _ c h1 with h2 | ⟨h2, ho⟩
    · rcases mem_pair ((show strL "oe" = ['o', 'e'] from rfl) ▸ h2) with rfl | rfl <;> decide
    · rcases replaceChar_chars _ _ _ c h2 with h3 | ⟨h3, ha⟩
      · rcases mem_pair ((show strL "ae" = ['a', 'e'] from rfl) ▸ h3) with rfl | rfl <;>
          decide
      · rcases replaceChar_chars _ _ _ c h3 with h4 | ⟨h4, hb⟩
        · rcases mem_pair ((show strL "ss" = ['s', 's'] from rfl) ▸ h4) with rfl | rfl <;>
            decide
        · rcases hz c h4 with h5 | rfl
          · have h6 : (azCh c || decide (c ∈ strL "ßäöü") || isSpaceCh c) = true := h5
            rcases Bool.or_eq_true _ _ |>.mp h6 with h7 | h7
            · rcases Bool.or_eq_true _ _ |>.mp h7 with h8 | h8
              · exact Or.inl h8
              · rcases mem_quad ((show strL "ßäöü" = ['ß', 'ä', 'ö', 'ü'] from rfl)
                    ▸ of_decide_eq_true h8) with rfl | rfl | rfl | rfl
                · exact absurd rfl hb
                · exact absurd rfl ha
                · exact absurd rfl ho
                · exact absurd rfl hu
            · exact Or.inr h7
          · decide

lemma preprocess_out (pf : UPlatform) (raw : Str) :
    (∀ c ∈ preprocess pf raw, azCh c = true ∨ c = ' ')
    ∧ List.Chain' (fun a b => (!isSpaceCh a) = true ∨ (!isSpaceCh b) = true)
        (preprocess pf raw)
    ∧ (∀ c, (preprocess pf raw).head? = some c → isSpaceCh c = false)
    ∧ (∀ c, (preprocess pf raw).getLast? = some c → isSpaceCh c = false) := by
  refine ⟨?_, ?_, ?_, ?_⟩
  · intro c hc
    unfold preprocess at hc
    have hc1 := mem_of_mem_trimStr hc
    unfold collapseWs at hc1
    rcases replRuns_chars _ _ _ c hc1 with ⟨hmem, hq⟩ | rfl
    · have hY := germanic_steps_chars _ (fun d hd => by
        rcases replRuns_chars preAllowed _ false d hd with ⟨_, hp⟩ | rfl
        · exact Or.inl hp
        · exact Or.inr rfl) c hmem
      rcases hY with h | h
      · exact Or.inl h
      · rw [h] at hq
        exact absurd hq (by decide)
    · exact Or.inr rfl
  · unfold preprocess
    exact chain'_trim _ (replRuns_chain _ _ _)
  · intro c
    unfold preprocess
    exact trim_head _ c
  · intro c
    unfold preprocess
    exact trim_last _ c

lemma preprocess_fix (pf : UPlatform)
    (hlow : ∀ s : Str, (∀ c ∈ s, azCh c = true ∨ c = ' ') → pf.toLower s = s)
    (hnf : ∀ s : Str, (∀ c ∈ s, azCh c = true ∨ c = ' ') → pf.nfkd s = s)
    (l : Str)
    (hch : ∀ c ∈ l, azCh c = true ∨ c = ' ')
    (hchain : List.Chain' (fun a b => (!isSpaceCh a) = true ∨ (!isSpaceCh b) = true) l)
    (hhd : ∀ c, l.head? = some c → isSpaceCh c = false)
    (hlast : ∀ c, l.getLast? = some c → isSpaceCh c = false) :
    preprocess pf l = l := by
  unfold preprocess
  rw [hlow l hch, hnf l hch]
  have hstrip : stripMarks l = l := by
    unfold stripMarks
    rw [List.filter_eq_self]
    intro c hc
    rcases hch c hc with h | rfl
    · simp [(azBundle c (of_decide_eq_true h)).1]
    · decide
  rw [hstrip]
  rw [replRuns_id preAllowed l (fun c hc => by
    rcases hch c hc with h | rfl
    · exact (azBundle c (of_decide_eq_true h)).2.2.1
    · decide)]
  rw [replaceChar_id 'ß' _ l (fun c hc => by
    rcases hch c hc with h | rfl
    · exact (azBundle c (of_decide_eq_true h)).2.2.2.1
    · decide)]
  rw [replaceChar_id 'ä' _ l (fun c hc => by
    rcases hch c hc with h | rfl
    · exact (azBundle c (of_decide_eq_true h)).2.2.2.2.1
    · decide)]
  rw [replaceChar_id 'ö' _ l (fun c hc => by
    rcases hch c hc with h | rfl
    · exact (azBundle c (of_decide_eq_true h)).2.2.2.2.2.1
    · decide)]
  rw [replaceChar_id 'ü' _ l (fun c hc => by
    rcases hch c hc with h | rfl
    · exact (azBundle c (of_decide_eq_true h)).2.2.2.2.2.2
    · decide)]
  rw [collapseWs_id l (fun c hc => by
    rcases hch c hc with h | rfl
    · exact Or.inl (by simp [(azBundle c (of_decide_eq_true h)).2.1])
    · exact Or.inr rfl) hchain]
  exact trimStr_id l hhd hlast

/-- Claim C10: `preprocess` is idempotent, because every output consists only
of lowercase ASCII letters separated by single spaces with no leading or
trailing whitespace, and such strings are fixed points of every stage
(provided the external `toLowerCase` and NFKD primitives fix lowercase
ASCII-letter-and-space strings, which is a fact of Unicode). -/
theorem claim_C10 :
    ∀ (pf : UPlatform) (raw : Str),
      (∀ s : Str, (∀ c ∈ s, azCh c = true ∨ c = ' ') → pf.toLower s = s) →
      (∀ s : Str, (∀ c ∈ s, azCh c = true ∨ c = ' ') → pf.nfkd s = s) →
      preprocess pf (preprocess pf raw) = preprocess pf raw := by
  intro pf raw hlow hnf
  obtain ⟨h1, h2, h3, h4⟩ := preprocess_out pf raw
  exact preprocess_fix pf hlow hnf _ h1 h2 h3 h4

/-- Claim C10 witness: idempotence at the identity platform on a concrete
mixed string. -/
theorem claim_C10_witness :
    preprocess idPlatform (preprocess idPlatform (strL "  schwarz  mueller "))
      = preprocess idPlatform (strL "  schwarz  mueller ") :=
  claim_C10 idPlatform (strL "  schwarz  mueller ")
    (fun _ _ => rfl) (fun _ _ => rfl)
